import Mathlib

/- Shallow embedding of the University-Timetable-Optimizer-EA core:
the domain model and fitness evaluator (src/models/timetable.py), the
solution decoder and fitness wrapper (app.py), and the two searches
(src/algorithms/pso.py, src/algorithms/genetic.py).

Conventions of the embedding:
  - Python ints are modelled as ℤ (course ids, slot fields) or ℕ (counts);
    the float penalty accumulator only ever holds exact integers
    (sums of 100/1000/50/30), so it is modelled as ℤ.
  - Solution vectors are real-valued; they are modelled as List ℚ.
  - Python float("inf") used by the searches and the fitness wrapper is
    modelled as the top element of WithTop ℤ.
  - A raised exception is modelled as Except.error / Option.none.
  - Python dicts keep insertion order; they are modelled as association
    lists in insertion order.  The room/lecturer bookkeeping dicts of
    get_fitness have their values written but never read, so only their
    key list is carried.
  - list.sort / sorted in Python are stable sorts; a stable sort with a
    given total preorder is a unique function of its input, so they are
    modelled by List.insertionSort with the corresponding ≤-style
    relation (Mathlib's insertionSort is stable).
-/

namespace Timetabling

/-- Course dataclass from src/models/timetable.py. -/
structure Course where
  id : ℤ
  name : String
  duration : ℕ
  lecturer : ℤ
  required_rooms : List ℤ
  deriving DecidableEq

/-- Lecturer dataclass from src/models/timetable.py; available_slots is a
list of (day, period) pairs. -/
structure Lecturer where
  id : ℤ
  name : String
  available_slots : List (ℤ × ℤ)
  deriving DecidableEq

/-- TimeSlot dataclass from src/models/timetable.py. -/
structure TimeSlot where
  day : ℤ
  period : ℤ
  room : ℤ
  deriving DecidableEq

/-- A schedule: dict course_id -> list of TimeSlots, in insertion order. -/
abbrev Schedule := List (ℤ × List TimeSlot)

/-- Timetable class state from src/models/timetable.py. -/
structure Timetable where
  courses : List Course
  lecturers : List Lecturer
  rooms : List ℤ
  days : ℕ
  periods_per_day : ℕ
  schedule : Schedule
  deriving DecidableEq

/-- Python int(round(x)) on an exact real: nearest integer, ties to even. -/
def pyRound (q : ℚ) : ℤ :=
  let f : ℤ := q.num.fdiv (q.den : ℤ)
  let t : ℤ := 2 * (q.num - f * (q.den : ℤ))
  if t < (q.den : ℤ) then f
  else if (q.den : ℤ) < t then f + 1
  else if f % 2 = 0 then f else f + 1

/-- The sort key order used by slots.sort(key=lambda x: (x.day, x.period)):
lexicographic ≤ on the (day, period) pair. -/
def slotOrder (a b : TimeSlot) : Prop :=
  a.day < b.day ∨ (a.day = b.day ∧ a.period ≤ b.period)

instance : DecidableRel slotOrder := fun a b =>
  inferInstanceAs (Decidable (a.day < b.day ∨ (a.day = b.day ∧ a.period ≤ b.period)))

instance : IsTotal TimeSlot slotOrder := by
  constructor
  intro a b
  unfold slotOrder
  omega

instance : IsTrans TimeSlot slotOrder := by
  constructor
  intro a b c hab hbc
  unfold slotOrder at *
  omega

/-- Python slots.sort(key=lambda x: (x.day, x.period)): a stable sort by
(day, period). -/
def sortSlots (l : List TimeSlot) : List TimeSlot :=
  List.insertionSort slotOrder l

/-- sum(course.duration * 3 for course in courses), the required solution
vector length (app.py lines 81/93/318). -/
def solution_size (courses : List Course) : ℕ :=
  (courses.map fun c => c.duration * 3).sum

/-- The two failure modes of decode_solution (app.py lines 93-94, 102-103). -/
inductive DecodeErr where
  | lengthMismatch : DecodeErr
  | tooShort : ℤ → DecodeErr
  deriving DecidableEq

/-- The inner loop of decode_solution for one course (app.py lines 101-111):
consume duration triples starting at current_index, checking
current_index + 2 >= len(solution) before each triple. -/
def decodeCourse (sol : List ℚ) (cid : ℤ) : ℕ → ℕ → Except DecodeErr (List TimeSlot × ℕ)
  | 0, idx => .ok ([], idx)
  | n + 1, idx =>
    if sol.length ≤ idx + 2 then .error (.tooShort cid)
    else
      let day := pyRound (sol.getD idx 0) % 5
      let period := pyRound (sol.getD (idx + 1) 0) % 8
      let room := pyRound (sol.getD (idx + 2) 0) % 8
      match decodeCourse sol cid n (idx + 3) with
      | .error e => .error e
      | .ok (rest, idx') => .ok (⟨day, period, room⟩ :: rest, idx')

/-- Python dict assignment d[k] = v on an insertion-ordered association
list: overwrite in place if the key exists, else append. -/
def dictInsert (d : Schedule) (k : ℤ) (v : List TimeSlot) : Schedule :=
  if d.any (fun p => p.1 == k) then d.map (fun p => if p.1 == k then (k, v) else p)
  else d ++ [(k, v)]

/-- Python dict lookup d[k] on an association list. -/
def dictFind (d : Schedule) (k : ℤ) : Option (List TimeSlot) :=
  (d.find? (fun p => p.1 == k)).map (·.2)

/-- The outer loop of decode_solution (app.py lines 99-114): per course,
decode its triples, sort the slots by (day, period), store them. -/
def decodeGo (sol : List ℚ) : List Course → ℕ → Schedule → Except DecodeErr Schedule
  | [], _, acc => .ok acc
  | c :: rest, idx, acc =>
    match decodeCourse sol c.id c.duration idx with
    | .error e => .error e
    | .ok (slots, idx') => decodeGo sol rest idx' (dictInsert acc c.id (sortSlots slots))

/-- decode_solution from app.py lines 91-116. -/
def decode_solution (sol : List ℚ) (courses : List Course) : Except DecodeErr Schedule :=
  if sol.length ≠ solution_size courses then .error .lengthMismatch
  else decodeGo sol courses 0 []

/-- The (day, period, room) key used by the room bookkeeping dict. -/
def roomKey (s : TimeSlot) : ℤ × ℤ × ℤ :=
  (s.day, s.period, s.room)

/-- Common shape of the two inner slot loops of get_fitness
(timetable.py lines 53-60 and 69-77): +100 when the slot is bad for the
per-slot validity check, +1000 when the slot's key is already in the
bookkeeping dict, then record the key. -/
def penSlotFold (bad : TimeSlot → Bool) (key : TimeSlot → ℤ × ℤ × ℤ) :
    List TimeSlot → ℤ → List (ℤ × ℤ × ℤ) → ℤ × List (ℤ × ℤ × ℤ)
  | [], pen, seen => (pen, seen)
  | s :: rest, pen, seen =>
    let pen1 := if bad s then pen + 100 else pen
    let pen2 := if key s ∈ seen then pen1 + 1000 else pen1
    let seen2 := if key s ∈ seen then seen else seen ++ [key s]
    penSlotFold bad key rest pen2 seen2

/-- The per-slot validity check of the room pass (timetable.py line 54):
slot.room not in course.required_rooms. -/
def roomBad (course : Course) (s : TimeSlot) : Bool :=
  decide (s.room ∉ course.required_rooms)

/-- Inner slot loop of the room-conflict pass (timetable.py lines 53-60). -/
def roomSlotFold (course : Course) (slots : List TimeSlot) (pen : ℤ)
    (seen : List (ℤ × ℤ × ℤ)) : ℤ × List (ℤ × ℤ × ℤ) :=
  penSlotFold (roomBad course) roomKey slots pen seen

/-- Room-conflict pass of get_fitness (timetable.py lines 47-60); none
models the StopIteration escaping from the course lookup. -/
def roomPass (courses : List Course) : Schedule → ℤ → List (ℤ × ℤ × ℤ) → Option ℤ
  | [], pen, _ => some pen
  | (cid, slots) :: rest, pen, seen =>
    match courses.find? (fun c => c.id == cid) with
    | none => none
    | some course =>
      let st := roomSlotFold course slots pen seen
      roomPass courses rest st.1 st.2

/-- Lecturer availability test of timetable.py lines 70-71: some available
pair equals the slot's (day, period). -/
def availBool (lecturer : Lecturer) (s : TimeSlot) : Bool :=
  lecturer.available_slots.any (fun a => a.1 == s.day && a.2 == s.period)

/-- The (day, period, lecturer) key used by the lecturer bookkeeping dict. -/
def lectKey (course : Course) (s : TimeSlot) : ℤ × ℤ × ℤ :=
  (s.day, s.period, course.lecturer)

/-- Inner slot loop of the lecturer pass (timetable.py lines 69-77):
+100 if (day, period) is not among the lecturer's available slots, +1000
if the (day, period, lecturer) key was already seen, then record it. -/
def lecturerSlotFold (course : Course) (lecturer : Lecturer) (slots : List TimeSlot) (pen : ℤ)
    (seen : List (ℤ × ℤ × ℤ)) : ℤ × List (ℤ × ℤ × ℤ) :=
  penSlotFold (fun s => ! availBool lecturer s) (lectKey course) slots pen seen

/-- Lecturer-conflict pass of get_fitness (timetable.py lines 62-77). -/
def lecturerPass (courses : List Course) (lecturers : List Lecturer) :
    Schedule → ℤ → List (ℤ × ℤ × ℤ) → Option ℤ
  | [], pen, _ => some pen
  | (cid, slots) :: rest, pen, seen =>
    match courses.find? (fun c => c.id == cid) with
    | none => none
    | some course =>
      match lecturers.find? (fun l => l.id == course.lecturer) with
      | none => none
      | some lecturer =>
        let st := lecturerSlotFold course lecturer slots pen seen
        lecturerPass courses lecturers rest st.1 st.2

/-- The walk over consecutive sorted slots (timetable.py lines 83-89),
starting from prev_slot: +50 on a day change, else +30 when the period is
not exactly the previous period plus one. -/
def contiguityGo (prev : TimeSlot) : List TimeSlot → ℤ
  | [] => 0
  | s :: rest =>
    (if s.day ≠ prev.day then 50 else if s.period ≠ prev.period + 1 then 30 else 0) +
      contiguityGo s rest

/-- Continuity penalty of one course (timetable.py lines 81-89): lists of
length ≤ 1 are skipped, longer ones are sorted and scanned. -/
def contiguityItem (slots : List TimeSlot) : ℤ :=
  if 1 < slots.length then
    match sortSlots slots with
    | [] => 0
    | s :: rest => contiguityGo s rest
  else 0

/-- Continuity pass of get_fitness (timetable.py lines 79-89). -/
def contiguityPass (sched : Schedule) : ℤ :=
  (sched.map fun p => contiguityItem p.2).sum

/-- The in-place effect of the continuity pass: each slot list of length
greater than one is replaced by its (day, period)-sorted version. -/
def sortSchedule (sched : Schedule) : Schedule :=
  sched.map fun p => (p.1, if 1 < p.2.length then sortSlots p.2 else p.2)

/-- Timetable.get_fitness from timetable.py lines 43-91.  Returns the
penalty total together with the post-call Timetable (the continuity pass
sorts each long slot list in place); none models a StopIteration escaping
from a failed course/lecturer lookup, in which case nothing was mutated. -/
def Timetable.get_fitness (tt : Timetable) : Option (ℤ × Timetable) :=
  match roomPass tt.courses tt.schedule 0 [] with
  | none => none
  | some p1 =>
    match lecturerPass tt.courses tt.lecturers tt.schedule p1 [] with
    | none => none
    | some p2 =>
      some (p2 + contiguityPass tt.schedule, { tt with schedule := sortSchedule tt.schedule })

/-- create_fitness_function from app.py lines 78-89: the returned closure
raises on a vector-length mismatch, otherwise decodes and scores the
vector, turning any exception into float("inf"). -/
def create_fitness_function (tt : Timetable) (solution : List ℚ) : Except Unit (WithTop ℤ) :=
  if solution.length ≠ solution_size tt.courses then .error ()
  else
    match decode_solution solution tt.courses with
    | .error _ => .ok ⊤
    | .ok sched =>
      match Timetable.get_fitness { tt with schedule := sched } with
      | none => .ok ⊤
      | some pr => .ok (pr.1 : WithTop ℤ)

instance {ε α : Type _} [DecidableEq ε] [DecidableEq α] : DecidableEq (Except ε α) := fun a b =>
  match a, b with
  | .error e, .error f => decidable_of_iff (e = f) (by simp)
  | .ok x, .ok y => decidable_of_iff (x = y) (by simp)
  | .error _, .ok _ => .isFalse (by simp)
  | .ok _, .error _ => .isFalse (by simp)

/-- The raw decoded triples: the slots produced for n triples starting at
index idx, mirroring app.py lines 105-109 (day = round mod 5, period and
room = round mod 8). -/
def rawSlots (sol : List ℚ) : ℕ → ℕ → List TimeSlot
  | _, 0 => []
  | idx, n + 1 =>
    ⟨pyRound (sol.getD idx 0) % 5, pyRound (sol.getD (idx + 1) 0) % 8,
      pyRound (sol.getD (idx + 2) 0) % 8⟩ :: rawSlots sol (idx + 3) n

/-- The schedule decode_solution builds when every course id is fresh:
course ids in iteration order, each bound to its sorted raw triples. -/
def decodedList (sol : List ℚ) : List Course → ℕ → Schedule
  | [], _ => []
  | c :: rest, idx =>
    (c.id, sortSlots (rawSlots sol idx c.duration)) :: decodedList sol rest (idx + c.duration * 3)

/-- The course lookup next(c for c in courses if c.id == course_id). -/
def lookupCourse (courses : List Course) (cid : ℤ) : Option Course :=
  courses.find? (fun c => c.id == cid)

/-- The lecturer lookup next(l for l in lecturers if l.id == course.lecturer). -/
def lookupLect (lecturers : List Lecturer) (lid : ℤ) : Option Lecturer :=
  lecturers.find? (fun l => l.id == lid)

/-- Closed form of the invalid-room 100-point penalties: 100 per slot
whose room is outside its course's required rooms. -/
def invalidRoomTotal (courses : List Course) (sched : Schedule) : ℤ :=
  (sched.map (fun p =>
    match lookupCourse courses p.1 with
    | some c => 100 * (p.2.countP (roomBad c) : ℤ)
    | none => 0)).sum

/-- Closed form of the lecturer-unavailability 100-point penalties. -/
def unavailTotal (courses : List Course) (lecturers : List Lecturer) (sched : Schedule) : ℤ :=
  (sched.map (fun p =>
    match lookupCourse courses p.1 with
    | some c =>
      match lookupLect lecturers c.lecturer with
      | some l => 100 * (p.2.countP (fun s => ! availBool l s) : ℤ)
      | none => 0
    | none => 0)).sum

/-- All (day, period, room) keys of a schedule, one per slot occurrence. -/
def schedRoomKeys (sched : Schedule) : List (ℤ × ℤ × ℤ) :=
  sched.flatMap (fun p => p.2.map roomKey)

/-- All (day, period, lecturer) keys of a schedule, one per slot occurrence. -/
def schedLectKeys (courses : List Course) (sched : Schedule) : List (ℤ × ℤ × ℤ) :=
  sched.flatMap (fun p =>
    match lookupCourse courses p.1 with
    | some c => p.2.map (lectKey c)
    | none => [])

/-- Total number of slot occurrences of a schedule. -/
def totalSlots (sched : Schedule) : ℕ :=
  (sched.map (fun p => p.2.length)).sum

/-- All lookups performed by get_fitness succeed. -/
def lookupsOk (tt : Timetable) : Prop :=
  ∀ p ∈ tt.schedule, ∃ c, lookupCourse tt.courses p.1 = some c ∧
    ∃ l, lookupLect tt.lecturers c.lecturer = some l

/-- The closed-form value of get_fitness when every lookup succeeds. -/
def fitnessClosed (tt : Timetable) : ℤ :=
  invalidRoomTotal tt.courses tt.schedule +
    1000 * ((totalSlots tt.schedule : ℤ) - ((schedRoomKeys tt.schedule).toFinset.card : ℤ)) +
    unavailTotal tt.courses tt.lecturers tt.schedule +
    1000 * ((totalSlots tt.schedule : ℤ) -
      ((schedLectKeys tt.courses tt.schedule).toFinset.card : ℤ)) +
    contiguityPass tt.schedule

/-- Perfect contiguity of two consecutive sorted slots: same day and the
period is exactly the previous period plus one. -/
def contiguousStep (a b : TimeSlot) : Prop :=
  b.day = a.day ∧ b.period = a.period + 1

instance : DecidableRel contiguousStep := fun a b =>
  inferInstanceAs (Decidable (b.day = a.day ∧ b.period = a.period + 1))

/-- Number of pairs of one slot from each of two slot lists that occupy
the same (day, period, room). -/
def crossKeyPairs (xs ys : List TimeSlot) : ℕ :=
  (xs.map (fun a => ys.countP (fun b => roomKey b == roomKey a))).sum

/-- Modelled from the claim wording of C8: 1000 accrues exactly once per
offending pair of two DIFFERENT courses occupying the same (day, period,
room), and only for pairs of different courses; slots of one and the same
course never contribute. -/
def claimRoomPairPenalty : Schedule → ℤ
  | [] => 0
  | p :: rest =>
    1000 * (((rest.map (fun q => crossKeyPairs p.2 q.2)).sum : ℕ) : ℤ) +
      claimRoomPairPenalty rest

/- Both searches treat the fitness callback as an opaque total function
from vectors to an inf-capable scalar; by C4 the wrapper never raises for
vectors of the length the searches use, so this models the closure they
receive.  Randomness is modelled as oracle arguments supplying the drawn
values: any actual run corresponds to some oracle. -/

/-- Particle dataclass from pso.py lines 8-13. -/
structure Particle where
  position : List ℚ
  velocity : List ℚ
  best_position : List ℚ
  best_fitness : WithTop ℤ
  deriving DecidableEq

/-- PSO constructor parameters, pso.py lines 16-30. -/
structure PSOConfig where
  n_particles : ℕ
  n_iterations : ℕ
  w_start : ℚ
  w_end : ℚ
  c1 : ℚ
  c2 : ℚ
  v_max : ℚ
  deriving DecidableEq

/-- Mutable search state of PSO (pso.py lines 31-36): the particle list,
the global best position (None until some finite-fitness candidate was
seen) and the global best fitness (starting at float("inf")). -/
structure PSOState where
  particles : List Particle
  global_best_position : Option (List ℚ)
  global_best_fitness : WithTop ℤ
  deriving DecidableEq

/-- Elementwise vector arithmetic of the numpy arrays. -/
def vecAdd (a b : List ℚ) : List ℚ :=
  List.zipWith (· + ·) a b

/-- Elementwise subtraction. -/
def vecSub (a b : List ℚ) : List ℚ :=
  List.zipWith (· - ·) a b

/-- Scalar times vector. -/
def vecScale (c : ℚ) (a : List ℚ) : List ℚ :=
  a.map (c * ·)

/-- One step of initialize_particles (pso.py lines 41-62): build the
particle from the drawn position/velocity, evaluate it once, seed its
personal best, and update the global best on strict improvement. -/
def initStep (f : List ℚ → WithTop ℤ) (st : PSOState) (d : List ℚ × List ℚ) : PSOState :=
  let fitness := f d.1
  let particle : Particle := ⟨d.1, d.2, d.1, fitness⟩
  let st1 :=
    if fitness < st.global_best_fitness then
      { st with global_best_position := some d.1, global_best_fitness := fitness }
    else st
  { st1 with particles := st1.particles ++ [particle] }

/-- initialize_particles from pso.py lines 38-62, with the n_particles
uniform draws supplied by the oracle. -/
def init_particles (f : List ℚ → WithTop ℤ) (inits : ℕ → List ℚ × List ℚ) (n : ℕ) : PSOState :=
  ((List.range n).map inits).foldl (initStep f) ⟨[], none, ⊤⟩

/-- The per-particle body of the PSO iteration loop (pso.py lines 74-98):
velocity update from the two shared random coefficients, elementwise clip
to [-v_max, v_max], position update, evaluation, personal-best and nested
global-best update.  When global_best_position is still None the social
term is None minus an array: a TypeError, modelled as an error. -/
def particleStep (cfg : PSOConfig) (f : List ℚ → WithTop ℤ) (w : ℚ) (r : ℚ × ℚ)
    (st : PSOState) (p : Particle) : Except Unit (PSOState × Particle) :=
  let cognitive := vecScale (cfg.c1 * r.1) (vecSub p.best_position p.position)
  match st.global_best_position with
  | none => .error ()
  | some g =>
    let social := vecScale (cfg.c2 * r.2) (vecSub g p.position)
    let velocity := (vecAdd (vecAdd (vecScale w p.velocity) cognitive) social).map
      (fun x => min cfg.v_max (max (-cfg.v_max) x))
    let position := vecAdd p.position velocity
    let fitness := f position
    if fitness < p.best_fitness then
      if fitness < st.global_best_fitness then
        .ok ({ st with global_best_position := some position, global_best_fitness := fitness },
          ⟨position, velocity, position, fitness⟩)
      else .ok (st, ⟨position, velocity, position, fitness⟩)
    else .ok (st, ⟨position, velocity, p.best_position, p.best_fitness⟩)

/-- The inner for-particle loop of one PSO iteration, threading the
global-best state and rebuilding the particle list in order. -/
def psoParticlesGo (cfg : PSOConfig) (f : List ℚ → WithTop ℤ) (w : ℚ) (rand : ℕ → ℚ × ℚ) :
    ℕ → List Particle → PSOState → List Particle → Except Unit PSOState
  | _, [], st, acc => .ok { st with particles := acc }
  | i, p :: rest, st, acc =>
    match particleStep cfg f w (rand i) st p with
    | .error e => .error e
    | .ok (st', p') => psoParticlesGo cfg f w rand (i + 1) rest st' (acc ++ [p'])

/-- One iteration of the PSO main loop at inertia weight w. -/
def psoIteration (cfg : PSOConfig) (f : List ℚ → WithTop ℤ) (w : ℚ) (rand : ℕ → ℚ × ℚ)
    (st : PSOState) : Except Unit PSOState :=
  psoParticlesGo cfg f w rand 0 st.particles st []

/-- The first k iterations of the PSO main loop (pso.py lines 70-98),
with the linearly decayed inertia weight of iteration index k. -/
def psoLoop (cfg : PSOConfig) (f : List ℚ → WithTop ℤ) (rand : ℕ → ℕ → ℚ × ℚ)
    (st : PSOState) : ℕ → Except Unit PSOState
  | 0 => .ok st
  | k + 1 =>
    match psoLoop cfg f rand st k with
    | .error e => .error e
    | .ok st' =>
      psoIteration cfg f
        (cfg.w_start - (cfg.w_start - cfg.w_end) * (k : ℚ) / (cfg.n_iterations : ℚ))
        (rand k) st'

/-- PSO.optimize from pso.py lines 64-100: initialize, run the fixed
number of iterations, return the global best position (None when no
finite-fitness candidate was ever seen, reachable only if the loop body
never ran). -/
def PSO.optimize (cfg : PSOConfig) (f : List ℚ → WithTop ℤ) (inits : ℕ → List ℚ × List ℚ)
    (rand : ℕ → ℕ → ℚ × ℚ) : Except Unit (Option (List ℚ)) :=
  match psoLoop cfg f rand (init_particles f inits cfg.n_particles) cfg.n_iterations with
  | .error e => .error e
  | .ok st => .ok st.global_best_position

/-- GeneticAlgorithmConfig from genetic.py lines 9-15. -/
structure GeneticAlgorithmConfig where
  population_size : ℕ
  n_generations : ℕ
  mutation_rate : ℚ
  tournament_size : ℕ
  elite_size : ℕ
  deriving DecidableEq

/-- Individual from genetic.py lines 17-20; a freshly constructed
Individual always carries fitness float("inf"). -/
structure Individual where
  chromosome : List ℚ
  fitness : WithTop ℤ
  deriving DecidableEq

/-- Mutable search state of the GA (genetic.py lines 26-28). -/
structure GAState where
  population : List Individual
  best_individual : Option Individual
  best_fitness : WithTop ℤ
  deriving DecidableEq

/-- Sorting key used by sorted(population, key=lambda x: x.fitness). -/
def fitLe (a b : Individual) : Prop :=
  a.fitness ≤ b.fitness

instance : DecidableRel fitLe := fun a b =>
  inferInstanceAs (Decidable (a.fitness ≤ b.fitness))

/-- The random draws consumed while producing one offspring: the two
tournament samples (as indices into the current population — any actual
random.sample draw is some such index list), the uniform crossover mask,
and per-triple mutation coins and resampled values. -/
structure ChildRand where
  sample1 : List ℕ
  sample2 : List ℕ
  mask : List Bool
  coins : ℕ → ℚ × ℚ × ℚ
  draws : ℕ → ℚ × ℚ × ℚ

/-- The chromosome built by initialize_population (genetic.py lines
38-42): one triple per i in range(0, solution_size, 3); when
solution_size is not a multiple of 3 the writes at i+1 or i+2 fall
outside the zeros(solution_size) array, an IndexError. -/
def buildChrom (draws : ℕ → ℚ × ℚ × ℚ) : ℕ → ℕ → Except Unit (List ℚ)
  | 0, _ => .ok []
  | 1, _ => .error ()
  | 2, _ => .error ()
  | n + 3, t =>
    match buildChrom draws n (t + 1) with
    | .error e => .error e
    | .ok rest =>
      let d := draws t
      .ok (d.1 :: d.2.1 :: d.2.2 :: rest)

/-- The population-building loop of initialize_population (genetic.py
lines 35-52): evaluate each new individual once, append it, and update
the separately tracked best on strict improvement. -/
def gaInitGo (f : List ℚ → WithTop ℤ) (initDraws : ℕ → ℕ → ℚ × ℚ × ℚ) (size : ℕ) :
    List ℕ → GAState → Except Unit GAState
  | [], st => .ok st
  | i :: rest, st =>
    match buildChrom (initDraws i) size 0 with
    | .error e => .error e
    | .ok chrom =>
      let fit := f chrom
      let st1 := { st with population := st.population ++ [⟨chrom, fit⟩] }
      let st2 :=
        if fit < st1.best_fitness then
          { st1 with best_individual := some ⟨chrom, fit⟩, best_fitness := fit }
        else st1
      gaInitGo f initDraws size rest st2

/-- initialize_population from genetic.py lines 31-52. -/
def init_population (cfg : GeneticAlgorithmConfig) (f : List ℚ → WithTop ℤ)
    (initDraws : ℕ → ℕ → ℚ × ℚ × ℚ) (size : ℕ) : Except Unit GAState :=
  gaInitGo f initDraws size (List.range cfg.population_size) ⟨[], none, ⊤⟩

/-- tournament_selection from genetic.py lines 54-57: min by fitness over
the sampled individuals (Python min keeps the first minimum and raises on
an empty sample, e.g. when sampling from an empty population). -/
def tournament_selection (pop : List Individual) (sample : List ℕ) : Except Unit Individual :=
  match sample.filterMap (fun i => pop.get? i) with
  | [] => .error ()
  | x :: xs => .ok (xs.foldl (fun acc y => if y.fitness < acc.fitness then y else acc) x)

/-- crossover from genetic.py lines 59-64: gene-wise uniform mix of the
two parent chromosomes; the child is a fresh Individual, so its fitness
starts at float("inf"). -/
def crossover (mask : List Bool) (p1 p2 : Individual) : Individual :=
  ⟨(mask.zip (p1.chromosome.zip p2.chromosome)).map
    (fun q => if q.1 then q.2.1 else q.2.2), ⊤⟩

/-- mutate from genetic.py lines 66-74: per triple, three independent
coins resample day/period/room; on a chromosome whose length is not a
multiple of 3, a triggered coin for a missing position is an IndexError. -/
def mutate (rate : ℚ) (coins draws : ℕ → ℚ × ℚ × ℚ) : ℕ → List ℚ → Except Unit (List ℚ)
  | _, [] => .ok []
  | t, [a] =>
    let c := coins t
    let d := draws t
    let a1 := if c.1 < rate then d.1 else a
    if c.2.1 < rate then .error ()
    else if c.2.2 < rate then .error ()
    else .ok [a1]
  | t, [a, b] =>
    let c := coins t
    let d := draws t
    let a1 := if c.1 < rate then d.1 else a
    let b1 := if c.2.1 < rate then d.2.1 else b
    if c.2.2 < rate then .error ()
    else .ok [a1, b1]
  | t, a :: b :: c0 :: rest =>
    let c := coins t
    let d := draws t
    let a1 := if c.1 < rate then d.1 else a
    let b1 := if c.2.1 < rate then d.2.1 else b
    let c1 := if c.2.2 < rate then d.2.2 else c0
    match mutate rate coins draws (t + 1) rest with
    | .error e => .error e
    | .ok rest' => .ok (a1 :: b1 :: c1 :: rest')

/-- The offspring-production loop of one generation (genetic.py lines
89-101): parents by tournament from the old population, uniform
crossover, mutation, one evaluation, append to the new population, and
best-ever update on strict improvement. -/
def gaChildrenGo (cfg : GeneticAlgorithmConfig) (f : List ℚ → WithTop ℤ)
    (pop : List Individual) (rand : ℕ → ChildRand) :
    ℕ → ℕ → GAState → Except Unit GAState
  | _, 0, st => .ok st
  | t, k + 1, st =>
    let r := rand t
    match tournament_selection pop r.sample1 with
    | .error e => .error e
    | .ok parent1 =>
      match tournament_selection pop r.sample2 with
      | .error e => .error e
      | .ok parent2 =>
        let child := crossover r.mask parent1 parent2
        match mutate cfg.mutation_rate r.coins r.draws 0 child.chromosome with
        | .error e => .error e
        | .ok chrom =>
          let fit := f chrom
          let st1 := { st with population := st.population ++ [⟨chrom, fit⟩] }
          let st2 :=
            if fit < st1.best_fitness then
              { st1 with best_individual := some ⟨chrom, fit⟩, best_fitness := fit }
            else st1
          gaChildrenGo cfg f pop rand (t + 1) k st2

/-- One generation of GeneticAlgorithm.optimize (genetic.py lines 81-103):
stable sort by fitness, carry elite_size copies over (as fresh
Individuals, hence with fitness reset to float("inf")), fill the rest
with offspring, and replace the population. -/
def gaGeneration (cfg : GeneticAlgorithmConfig) (f : List ℚ → WithTop ℤ)
    (rand : ℕ → ChildRand) (st : GAState) : Except Unit GAState :=
  let sorted_pop := List.insertionSort fitLe st.population
  let elites := (sorted_pop.take cfg.elite_size).map
    (fun x => (⟨x.chromosome, ⊤⟩ : Individual))
  gaChildrenGo cfg f st.population rand 0 (cfg.population_size - elites.length)
    { st with population := elites }

/-- The first k generations of the GA main loop. -/
def gaGenerations (cfg : GeneticAlgorithmConfig) (f : List ℚ → WithTop ℤ)
    (orc : ℕ → ℕ → ChildRand) (st : GAState) : ℕ → Except Unit GAState
  | 0 => .ok st
  | k + 1 =>
    match gaGenerations cfg f orc st k with
    | .error e => .error e
    | .ok st' => gaGeneration cfg f (orc k) st'

/-- GeneticAlgorithm.optimize from genetic.py lines 76-105: initialize,
run the fixed number of generations, then return
best_individual.chromosome — an AttributeError (modelled as an error)
when best_individual is still None because no candidate ever beat the
infinite initial best. -/
def GeneticAlgorithm.optimize (cfg : GeneticAlgorithmConfig) (f : List ℚ → WithTop ℤ)
    (initDraws : ℕ → ℕ → ℚ × ℚ × ℚ) (orc : ℕ → ℕ → ChildRand) (size : ℕ) :
    Except Unit (List ℚ) :=
  match init_population cfg f initDraws size with
  | .error e => .error e
  | .ok st0 =>
    match gaGenerations cfg f orc st0 cfg.n_generations with
    | .error e => .error e
    | .ok st =>
      match st.best_individual with
      | none => .error ()
      | some b => .ok b.chromosome

theorem solution_size_cons (c : Course) (cs : List Course) :
    solution_size (c :: cs) = c.duration * 3 + solution_size cs := by
  simp [solution_size]

theorem decodeCourse_ok (sol : List ℚ) (cid : ℤ) :
    ∀ (n idx : ℕ), idx + 3 * n ≤ sol.length →
      decodeCourse sol cid n idx = .ok (rawSlots sol idx n, idx + 3 * n) := by
  intro n
  induction n with
  | zero => intro idx _; simp [decodeCourse, rawSlots]
  | succ n ih =>
    intro idx h
    have hguard : ¬ sol.length ≤ idx + 2 := by omega
    have hrec := ih (idx + 3) (by omega)
    simp only [decodeCourse, hguard, if_false, hrec, rawSlots]
    rw [(by omega : idx + 3 + 3 * n = idx + 3 * (n + 1))]

theorem decodeGo_ok (sol : List ℚ) :
    ∀ (cs : List Course) (idx : ℕ) (acc : Schedule),
      idx + solution_size cs ≤ sol.length → ∃ sched, decodeGo sol cs idx acc = .ok sched := by
  intro cs
  induction cs with
  | nil => intro idx acc _; exact ⟨acc, rfl⟩
  | cons c rest ih =>
    intro idx acc h
    rw [solution_size_cons] at h
    have hc := decodeCourse_ok sol c.id c.duration idx (by omega)
    obtain ⟨sched, hs⟩ :=
      ih (idx + 3 * c.duration) (dictInsert acc c.id (sortSlots (rawSlots sol idx c.duration)))
        (by omega)
    refine ⟨sched, ?_⟩
    simp only [decodeGo, hc]
    exact hs

theorem dictInsert_of_fresh (acc : Schedule) (k : ℤ) (v : List TimeSlot)
    (h : acc.all (fun p => !(p.1 == k))) : dictInsert acc k v = acc ++ [(k, v)] := by
  have hany : acc.any (fun p => p.1 == k) = false := by
    rw [List.any_eq_false]
    intro p hp
    simpa using List.all_eq_true.mp h p hp
  simp [dictInsert, hany]

theorem decodeGo_eq (sol : List ℚ) :
    ∀ (cs : List Course) (idx : ℕ) (acc : Schedule),
      idx + solution_size cs ≤ sol.length →
      (cs.map Course.id).Nodup →
      (∀ c ∈ cs, acc.all (fun p => !(p.1 == c.id))) →
      decodeGo sol cs idx acc = .ok (acc ++ decodedList sol cs idx) := by
  intro cs
  induction cs with
  | nil => intro idx acc _ _ _; simp [decodeGo, decodedList]
  | cons c rest ih =>
    intro idx acc hlen hnd hdisj
    rw [solution_size_cons] at hlen
    have hc := decodeCourse_ok sol c.id c.duration idx (by omega)
    simp only [decodeGo, hc]
    have hfresh := dictInsert_of_fresh acc c.id (sortSlots (rawSlots sol idx c.duration))
      (hdisj c (List.mem_cons_self c rest))
    rw [hfresh]
    have hnd' : (rest.map Course.id).Nodup := by
      simpa using hnd.of_cons
    have hdisj' : ∀ c' ∈ rest, (acc ++ [(c.id, sortSlots (rawSlots sol idx c.duration))]).all
        (fun p => !(p.1 == c'.id)) := by
      intro c' hc'
      simp only [List.all_append, Bool.and_eq_true]
      refine ⟨by simpa using (hdisj c' (List.mem_cons_of_mem c hc')), ?_⟩
      simp only [List.all_cons, List.all_nil, Bool.and_true]
      have : c.id ≠ c'.id := by
        simp only [List.map_cons, List.nodup_cons, List.mem_map] at hnd
        exact fun h => hnd.1 ⟨c', hc', h.symm⟩
      simpa using this
    rw [(by omega : idx + 3 * c.duration = idx + c.duration * 3)]
    have hle2 : idx + c.duration * 3 + solution_size rest ≤ sol.length := by omega
    have hih := ih (idx + c.duration * 3) (acc ++ [(c.id, sortSlots (rawSlots sol idx c.duration))])
      hle2 hnd' hdisj'
    rw [hih]
    simp only [decodedList, List.append_assoc, List.singleton_append]

theorem rawSlots_length (sol : List ℚ) : ∀ (n idx : ℕ), (rawSlots sol idx n).length = n := by
  intro n
  induction n with
  | zero => intro idx; simp [rawSlots]
  | succ n ih => intro idx; simp [rawSlots, ih]

theorem rawSlots_bounds (sol : List ℚ) :
    ∀ (n idx : ℕ), ∀ s ∈ rawSlots sol idx n,
      0 ≤ s.day ∧ s.day < 5 ∧ 0 ≤ s.period ∧ s.period < 8 ∧ 0 ≤ s.room ∧ s.room < 8 := by
  intro n
  induction n with
  | zero => intro idx s hs; simp [rawSlots] at hs
  | succ n ih =>
    intro idx s hs
    simp only [rawSlots, List.mem_cons] at hs
    rcases hs with rfl | hs
    · refine ⟨Int.emod_nonneg _ (by norm_num), Int.emod_lt_of_pos _ (by norm_num),
        Int.emod_nonneg _ (by norm_num), Int.emod_lt_of_pos _ (by norm_num),
        Int.emod_nonneg _ (by norm_num), Int.emod_lt_of_pos _ (by norm_num)⟩
    · exact ih (idx + 3) s hs

theorem sortSlots_perm (l : List TimeSlot) : (sortSlots l).Perm l :=
  List.perm_insertionSort slotOrder l

theorem sortSlots_sorted (l : List TimeSlot) : (sortSlots l).Sorted slotOrder :=
  List.sorted_insertionSort slotOrder l

theorem dictFind_decodedList (sol : List ℚ) :
    ∀ (cs : List Course) (idx : ℕ), (cs.map Course.id).Nodup →
      ∀ (i : ℕ) (hi : i < cs.length),
        dictFind (decodedList sol cs idx) (cs.get ⟨i, hi⟩).id =
          some (sortSlots (rawSlots sol (idx + solution_size (cs.take i))
            (cs.get ⟨i, hi⟩).duration)) := by
  intro cs
  induction cs with
  | nil => intro idx _ i hi; simp at hi
  | cons c rest ih =>
    intro idx hnd i hi
    match i with
    | 0 =>
      simp [decodedList, dictFind, List.find?, solution_size]
    | i + 1 =>
      have hi' : i < rest.length := by simpa using hi
      have hne : c.id ≠ (rest.get ⟨i, hi'⟩).id := by
        simp only [List.map_cons, List.nodup_cons, List.mem_map] at hnd
        exact fun h => hnd.1 ⟨rest.get ⟨i, hi'⟩, List.get_mem rest i hi', h.symm⟩
      have hnd' : (rest.map Course.id).Nodup := by
        simp only [List.map_cons, List.nodup_cons] at hnd
        exact hnd.2
      have hrec := ih (idx + c.duration * 3) hnd' i hi'
      simp only [decodedList, dictFind, List.find?] at hrec ⊢
      have hbeq : ((c.id, sortSlots (rawSlots sol idx c.duration)).1 ==
          ((c :: rest).get ⟨i + 1, hi⟩).id) = false := by
        simp only [List.get_cons_succ]
        simpa using hne
      rw [hbeq]
      simp only [List.get_cons_succ] at hrec ⊢
      rw [hrec]
      have htake : ((c :: rest).take (i + 1) : List Course) = c :: rest.take i := rfl
      have : idx + c.duration * 3 + solution_size (rest.take i) =
          idx + solution_size ((c :: rest).take (i + 1)) := by
        rw [htake, solution_size_cons]
        omega
      rw [this]

/-- C1: a vector whose length differs from the required Σ duration * 3
makes both decode_solution and the fitness wrapper fail with the
length-mismatch error, before any decoding work; a vector of exactly the
required length decodes with no error at all, so the internal
(Solution array too short) branch is unreachable under the precondition. -/
theorem decode_length_contract (tt : Timetable) (sol : List ℚ) :
    (sol.length ≠ solution_size tt.courses →
      decode_solution sol tt.courses = .error .lengthMismatch ∧
      create_fitness_function tt sol = .error ()) ∧
    (sol.length = solution_size tt.courses →
      ∃ sched, decode_solution sol tt.courses = .ok sched) := by
  constructor
  · intro h
    constructor
    · simp [decode_solution, h]
    · simp [create_fitness_function, h]
  · intro h
    obtain ⟨sched, hs⟩ := decodeGo_ok sol tt.courses 0 [] (by omega)
    exact ⟨sched, by simp [decode_solution, h, hs]⟩

theorem decode_length_contract_witness :
    (([0] : List ℚ).length ≠
        solution_size [⟨0, "Math", 2, 0, [0, 1]⟩] ∧
      decode_solution [0] [⟨0, "Math", 2, 0, [0, 1]⟩] = .error .lengthMismatch ∧
      create_fitness_function ⟨[⟨0, "Math", 2, 0, [0, 1]⟩], [], [], 5, 8, []⟩ [0] =
        .error ()) ∧
    (([0, 0, 0, 0, 1, 0] : List ℚ).length =
        solution_size [⟨0, "Math", 2, 0, [0, 1]⟩] ∧
      ∃ sched, decode_solution [0, 0, 0, 0, 1, 0] [⟨0, "Math", 2, 0, [0, 1]⟩] = .ok sched) :=
  ⟨⟨by decide,
    (decode_length_contract ⟨[⟨0, "Math", 2, 0, [0, 1]⟩], [], [], 5, 8, []⟩ [0]).1 (by decide)⟩,
   ⟨by decide,
    (decode_length_contract ⟨[⟨0, "Math", 2, 0, [0, 1]⟩], [], [], 5, 8, []⟩
      [0, 0, 0, 0, 1, 0]).2 (by decide)⟩⟩

/-- C2: on a vector of the required length, with pairwise distinct course
ids, decode_solution succeeds and maps each course to exactly duration
slots, obtained by consuming consecutive triples in course iteration
order (day = round v0 mod 5, period = round v1 mod 8, room = round v2
mod 8, hence all fields in range even for negative or out-of-range
inputs), stored sorted ascending by (day, period). -/
theorem decode_solution_spec (sol : List ℚ) (courses : List Course)
    (hlen : sol.length = solution_size courses)
    (hids : (courses.map Course.id).Nodup) :
    ∃ sched, decode_solution sol courses = .ok sched ∧
      ∀ (i : ℕ) (hi : i < courses.length),
        ∃ slots, dictFind sched (courses.get ⟨i, hi⟩).id = some slots ∧
          slots.length = (courses.get ⟨i, hi⟩).duration ∧
          slots.Perm (rawSlots sol (solution_size (courses.take i))
            (courses.get ⟨i, hi⟩).duration) ∧
          (∀ s ∈ slots,
            0 ≤ s.day ∧ s.day < 5 ∧ 0 ≤ s.period ∧ s.period < 8 ∧ 0 ≤ s.room ∧ s.room < 8) ∧
          slots.Sorted slotOrder := by
  have hgo := decodeGo_eq sol courses 0 [] (by omega) hids (by intro c _; simp)
  refine ⟨decodedList sol courses 0, by simp [decode_solution, hlen, hgo], ?_⟩
  intro i hi
  have hfind := dictFind_decodedList sol courses 0 hids i hi
  simp only [Nat.zero_add] at hfind
  refine ⟨_, hfind, ?_, sortSlots_perm _, ?_, sortSlots_sorted _⟩
  · rw [(sortSlots_perm _).length_eq, rawSlots_length]
  · intro s hs
    exact rawSlots_bounds sol _ _ s ((sortSlots_perm _).mem_iff.mp hs)

theorem decode_solution_spec_witness :
    ([(0 : ℚ), 0, 0, 0, 1, 0, 0, 2, 1].length =
        solution_size [⟨0, "Math", 2, 0, [0, 1]⟩, ⟨1, "Physics", 1, 1, [1, 2]⟩]) ∧
    (([⟨0, "Math", 2, 0, [0, 1]⟩, ⟨1, "Physics", 1, 1, [1, 2]⟩].map Course.id).Nodup) ∧
    (∃ sched, decode_solution [0, 0, 0, 0, 1, 0, 0, 2, 1]
        [⟨0, "Math", 2, 0, [0, 1]⟩, ⟨1, "Physics", 1, 1, [1, 2]⟩] = .ok sched ∧
      ∀ (i : ℕ) (hi : i < ([⟨0, "Math", 2, 0, [0, 1]⟩,
          ⟨1, "Physics", 1, 1, [1, 2]⟩] : List Course).length),
        ∃ slots, dictFind sched
            (([⟨0, "Math", 2, 0, [0, 1]⟩, ⟨1, "Physics", 1, 1, [1, 2]⟩] :
              List Course).get ⟨i, hi⟩).id = some slots ∧
          slots.length = (([⟨0, "Math", 2, 0, [0, 1]⟩, ⟨1, "Physics", 1, 1, [1, 2]⟩] :
            List Course).get ⟨i, hi⟩).duration ∧
          slots.Perm (rawSlots [0, 0, 0, 0, 1, 0, 0, 2, 1]
            (solution_size (([⟨0, "Math", 2, 0, [0, 1]⟩, ⟨1, "Physics", 1, 1, [1, 2]⟩] :
              List Course).take i))
            (([⟨0, "Math", 2, 0, [0, 1]⟩, ⟨1, "Physics", 1, 1, [1, 2]⟩] :
              List Course).get ⟨i, hi⟩).duration) ∧
          (∀ s ∈ slots,
            0 ≤ s.day ∧ s.day < 5 ∧ 0 ≤ s.period ∧ s.period < 8 ∧ 0 ≤ s.room ∧ s.room < 8) ∧
          slots.Sorted slotOrder) :=
  ⟨by decide, by decide,
    decode_solution_spec [0, 0, 0, 0, 1, 0, 0, 2, 1]
      [⟨0, "Math", 2, 0, [0, 1]⟩, ⟨1, "Physics", 1, 1, [1, 2]⟩] (by decide) (by decide)⟩

theorem card_insert_erase {α : Type _} [DecidableEq α] (K : α) (X : Finset α) :
    (insert K X).card = (X.erase K).card + 1 := by
  by_cases h : K ∈ X
  · rw [Finset.insert_eq_self.mpr h, Finset.card_erase_of_mem h]
    have := Finset.card_pos.mpr ⟨K, h⟩
    omega
  · rw [Finset.card_insert_of_not_mem h, Finset.erase_eq_of_not_mem h]

theorem sdiff_insert_card {α : Type _} [DecidableEq α] (K : α) (A S : Finset α) (hK : K ∉ S) :
    ((insert K A) \ S).card = (A \ insert K S).card + 1 := by
  have h1 : (insert K A) \ S = insert K (A \ S) := by
    ext x
    simp only [Finset.mem_sdiff, Finset.mem_insert]
    by_cases hx : x = K
    · simp [hx, hK]
    · simp [hx]
  have h2 : A \ insert K S = (A \ S).erase K := by
    ext x
    simp only [Finset.mem_sdiff, Finset.mem_insert, Finset.mem_erase]
    tauto
  rw [h1, h2, card_insert_erase]

theorem card_sdiff_union {α : Type _} [DecidableEq α] (A B S : Finset α) :
    ((A ∪ B) \ S).card = (A \ S).card + (B \ (S ∪ A)).card := by
  have h1 : (A ∪ B) \ S = (A \ S) ∪ (B \ (S ∪ A)) := by
    ext x
    simp only [Finset.mem_sdiff, Finset.mem_union]
    tauto
  have h2 : Disjoint (A \ S) (B \ (S ∪ A)) := by
    rw [Finset.disjoint_left]
    intro x hx hx2
    simp only [Finset.mem_sdiff, Finset.mem_union] at hx hx2
    tauto
  rw [h1, Finset.card_union_of_disjoint h2]

theorem penSlotFold_spec (bad : TimeSlot → Bool) (key : TimeSlot → ℤ × ℤ × ℤ) :
    ∀ (slots : List TimeSlot) (pen : ℤ) (seen : List (ℤ × ℤ × ℤ)),
      (penSlotFold bad key slots pen seen).1 =
        pen + 100 * (slots.countP bad : ℤ) +
          1000 * ((slots.length : ℤ) -
            (((slots.map key).toFinset \ seen.toFinset).card : ℤ)) ∧
      (penSlotFold bad key slots pen seen).2.toFinset =
        seen.toFinset ∪ (slots.map key).toFinset := by
  intro slots
  induction slots with
  | nil =>
    intro pen seen
    constructor
    · simp [penSlotFold]
    · simp [penSlotFold]
  | cons s rest ih =>
    intro pen seen
    by_cases hk : key s ∈ seen
    · have hkF : key s ∈ seen.toFinset := by simpa using hk
      have hred : penSlotFold bad key (s :: rest) pen seen =
          penSlotFold bad key rest ((if bad s then pen + 100 else pen) + 1000) seen := by
        simp [penSlotFold, hk]
      obtain ⟨h1, h2⟩ := ih ((if bad s then pen + 100 else pen) + 1000) seen
      have hset : ((s :: rest).map key).toFinset \ seen.toFinset =
          (rest.map key).toFinset \ seen.toFinset := by
        simp only [List.map_cons, List.toFinset_cons]
        exact Finset.insert_sdiff_of_mem _ hkF
      refine ⟨?_, ?_⟩
      · rw [hred, h1, hset, List.countP_cons, List.length_cons]
        by_cases hb : bad s
        · simp only [hb, if_true]
          push_cast
          ring
        · simp only [hb, if_false]
          push_cast
          ring
      · rw [hred, h2]
        simp only [List.map_cons, List.toFinset_cons]
        ext x
        simp only [Finset.mem_union, Finset.mem_insert]
        by_cases hx : x = key s
        · simp [hx, hkF]
        · simp [hx]
    · have hkF : key s ∉ seen.toFinset := by simpa using hk
      have hred : penSlotFold bad key (s :: rest) pen seen =
          penSlotFold bad key rest (if bad s then pen + 100 else pen) (seen ++ [key s]) := by
        simp [penSlotFold, hk]
      obtain ⟨h1, h2⟩ := ih (if bad s then pen + 100 else pen) (seen ++ [key s])
      have hseen2 : (seen ++ [key s]).toFinset = insert (key s) seen.toFinset := by
        simp only [List.toFinset_append, List.toFinset_cons, List.toFinset_nil]
        rw [Finset.insert_eq, Finset.union_comm]
        simp [Finset.insert_eq]
      have hcard : (((s :: rest).map key).toFinset \ seen.toFinset).card =
          ((rest.map key).toFinset \ insert (key s) seen.toFinset).card + 1 := by
        simp only [List.map_cons, List.toFinset_cons]
        exact sdiff_insert_card (key s) _ _ hkF
      refine ⟨?_, ?_⟩
      · rw [hred, h1, hseen2, List.countP_cons, List.length_cons, hcard]
        by_cases hb : bad s
        · simp only [hb, if_true]
          push_cast
          ring
        · simp only [hb, if_false]
          push_cast
          ring
      · rw [hred, h2, hseen2]
        simp only [List.map_cons, List.toFinset_cons, Finset.insert_eq]
        rw [Finset.union_assoc]
        exact Finset.union_left_comm {key s} seen.toFinset (rest.map key).toFinset

theorem roomPass_spec (courses : List Course) :
    ∀ (sched : Schedule) (pen : ℤ) (seen : List (ℤ × ℤ × ℤ)),
      (∀ p ∈ sched, (lookupCourse courses p.1).isSome) →
      roomPass courses sched pen seen =
        some (pen + invalidRoomTotal courses sched +
          1000 * ((totalSlots sched : ℤ) -
            (((schedRoomKeys sched).toFinset \ seen.toFinset).card : ℤ))) := by
  intro sched
  induction sched with
  | nil =>
    intro pen seen _
    simp [roomPass, invalidRoomTotal, totalSlots, schedRoomKeys]
  | cons p rest ih =>
    intro pen seen hlk
    obtain ⟨cid, slots⟩ := p
    obtain ⟨c, hc⟩ := Option.isSome_iff_exists.mp (hlk (cid, slots) (List.mem_cons_self _ rest))
    have hc' : courses.find? (fun x => x.id == cid) = some c := hc
    have hrest : ∀ p ∈ rest, (lookupCourse courses p.1).isSome := fun p hp =>
      hlk p (List.mem_cons_of_mem _ hp)
    obtain ⟨hpen, hseen⟩ := penSlotFold_spec (roomBad c) roomKey slots pen seen
    simp only [roomPass, hc', roomSlotFold]
    rw [ih _ _ hrest, hpen]
    have hKfin : ((penSlotFold (roomBad c) roomKey slots pen seen).2).toFinset =
        seen.toFinset ∪ (slots.map roomKey).toFinset := hseen
    rw [hKfin]
    have hcard := card_sdiff_union (slots.map roomKey).toFinset
      (schedRoomKeys rest).toFinset seen.toFinset
    have hinv : invalidRoomTotal courses ((cid, slots) :: rest) =
        100 * (slots.countP (roomBad c) : ℤ) + invalidRoomTotal courses rest := by
      simp [invalidRoomTotal, lookupCourse, hc']
    have hkeys : (schedRoomKeys ((cid, slots) :: rest)).toFinset =
        (slots.map roomKey).toFinset ∪ (schedRoomKeys rest).toFinset := by
      simp [schedRoomKeys]
    have htot : (totalSlots ((cid, slots) :: rest) : ℤ) = slots.length + totalSlots rest := by
      simp [totalSlots]
    rw [hinv, hkeys, htot, hcard]
    simp only [Option.some.injEq]
    push_cast
    ring

theorem roomPass_none (courses : List Course) :
    ∀ (sched : Schedule) (pen : ℤ) (seen : List (ℤ × ℤ × ℤ)),
      (∃ p ∈ sched, lookupCourse courses p.1 = none) →
      roomPass courses sched pen seen = none := by
  intro sched
  induction sched with
  | nil =>
    intro pen seen h
    obtain ⟨p, hp, _⟩ := h
    simp at hp
  | cons p rest ih =>
    intro pen seen h
    obtain ⟨cid, slots⟩ := p
    by_cases hhd : courses.find? (fun x => x.id == cid) = none
    · simp [roomPass, hhd]
    · obtain ⟨c, hc⟩ := Option.ne_none_iff_exists'.mp hhd
      simp only [roomPass, hc]
      apply ih
      obtain ⟨q, hq, hqn⟩ := h
      rcases List.mem_cons.mp hq with rfl | hq'
      · exact absurd hqn (by simp [lookupCourse, hc])
      · exact ⟨q, hq', hqn⟩

theorem lecturerPass_spec (courses : List Course) (lecturers : List Lecturer) :
    ∀ (sched : Schedule) (pen : ℤ) (seen : List (ℤ × ℤ × ℤ)),
      (∀ p ∈ sched, ∃ c, lookupCourse courses p.1 = some c ∧
        (lookupLect lecturers c.lecturer).isSome) →
      lecturerPass courses lecturers sched pen seen =
        some (pen + unavailTotal courses lecturers sched +
          1000 * ((totalSlots sched : ℤ) -
            (((schedLectKeys courses sched).toFinset \ seen.toFinset).card : ℤ))) := by
  intro sched
  induction sched with
  | nil =>
    intro pen seen _
    simp [lecturerPass, unavailTotal, totalSlots, schedLectKeys]
  | cons p rest ih =>
    intro pen seen hlk
    obtain ⟨cid, slots⟩ := p
    obtain ⟨c, hc, hl⟩ := hlk (cid, slots) (List.mem_cons_self _ rest)
    obtain ⟨l, hlec⟩ := Option.isSome_iff_exists.mp hl
    have hc' : courses.find? (fun x => x.id == cid) = some c := hc
    have hlec' : lecturers.find? (fun x => x.id == c.lecturer) = some l := hlec
    have hrest : ∀ p ∈ rest, ∃ c, lookupCourse courses p.1 = some c ∧
        (lookupLect lecturers c.lecturer).isSome := fun p hp =>
      hlk p (List.mem_cons_of_mem _ hp)
    obtain ⟨hpen, hseen⟩ :=
      penSlotFold_spec (fun s => ! availBool l s) (lectKey c) slots pen seen
    simp only [lecturerPass, hc', hlec', lecturerSlotFold]
    rw [ih _ _ hrest, hpen]
    have hKfin : ((penSlotFold (fun s => ! availBool l s) (lectKey c) slots pen seen).2).toFinset =
        seen.toFinset ∪ (slots.map (lectKey c)).toFinset := hseen
    rw [hKfin]
    have hcard := card_sdiff_union (slots.map (lectKey c)).toFinset
      (schedLectKeys courses rest).toFinset seen.toFinset
    have hinv : unavailTotal courses lecturers ((cid, slots) :: rest) =
        100 * (slots.countP (fun s => ! availBool l s) : ℤ) +
          unavailTotal courses lecturers rest := by
      simp [unavailTotal, lookupCourse, lookupLect, hc', hlec']
    have hkeys : (schedLectKeys courses ((cid, slots) :: rest)).toFinset =
        (slots.map (lectKey c)).toFinset ∪ (schedLectKeys courses rest).toFinset := by
      simp [schedLectKeys, lookupCourse, hc']
    have htot : (totalSlots ((cid, slots) :: rest) : ℤ) = slots.length + totalSlots rest := by
      simp [totalSlots]
    rw [hinv, hkeys, htot, hcard]
    simp only [Option.some.injEq]
    push_cast
    ring

theorem lecturerPass_none (courses : List Course) (lecturers : List Lecturer) :
    ∀ (sched : Schedule) (pen : ℤ) (seen : List (ℤ × ℤ × ℤ)),
      (∃ p ∈ sched, ∃ c, lookupCourse courses p.1 = some c ∧
        lookupLect lecturers c.lecturer = none) →
      (∀ p ∈ sched, (lookupCourse courses p.1).isSome) →
      lecturerPass courses lecturers sched pen seen = none := by
  intro sched
  induction sched with
  | nil =>
    intro pen seen h _
    obtain ⟨p, hp, _⟩ := h
    simp at hp
  | cons p rest ih =>
    intro pen seen h hall
    obtain ⟨cid, slots⟩ := p
    obtain ⟨c, hc⟩ := Option.isSome_iff_exists.mp (hall (cid, slots) (List.mem_cons_self _ rest))
    have hc' : courses.find? (fun x => x.id == cid) = some c := hc
    by_cases hl : lecturers.find? (fun x => x.id == c.lecturer) = none
    · simp [lecturerPass, hc', hl]
    · obtain ⟨l, hlec⟩ := Option.ne_none_iff_exists'.mp hl
      simp only [lecturerPass, hc', hlec]
      apply ih
      · obtain ⟨q, hq, c', hqc, hqn⟩ := h
        rcases List.mem_cons.mp hq with rfl | hq'
        · have : c' = c := by
            have : lookupCourse courses cid = some c := hc
            rw [hqc] at this
            exact (Option.some.injEq _ _ ▸ this).symm ▸ rfl
          subst this
          exact absurd hqn (by simp [lookupLect, hlec])
        · exact ⟨q, hq', c', hqc, hqn⟩
      · intro p hp
        exact hall p (List.mem_cons_of_mem _ hp)

theorem get_fitness_eq_some (tt : Timetable) (h : lookupsOk tt) :
    tt.get_fitness = some (fitnessClosed tt, { tt with schedule := sortSchedule tt.schedule }) := by
  have hcourses : ∀ p ∈ tt.schedule, (lookupCourse tt.courses p.1).isSome := by
    intro p hp
    obtain ⟨c, hc, _⟩ := h p hp
    simp [hc]
  have hlects : ∀ p ∈ tt.schedule, ∃ c, lookupCourse tt.courses p.1 = some c ∧
      (lookupLect tt.lecturers c.lecturer).isSome := by
    intro p hp
    obtain ⟨c, hc, l, hl⟩ := h p hp
    exact ⟨c, hc, by simp [hl]⟩
  have hroom := roomPass_spec tt.courses tt.schedule 0 [] hcourses
  have hlect := lecturerPass_spec tt.courses tt.lecturers tt.schedule
    (0 + invalidRoomTotal tt.courses tt.schedule +
      1000 * ((totalSlots tt.schedule : ℤ) -
        (((schedRoomKeys tt.schedule).toFinset \ ([] : List (ℤ × ℤ × ℤ)).toFinset).card : ℤ)))
    [] hlects
  simp only [Timetable.get_fitness, hroom, hlect]
  simp only [List.toFinset_nil, Finset.sdiff_empty, Option.some.injEq, Prod.mk.injEq]
  constructor
  · unfold fitnessClosed
    ring
  · trivial

theorem get_fitness_eq_none (tt : Timetable) (h : ¬ lookupsOk tt) :
    tt.get_fitness = none := by
  by_cases hall : ∀ p ∈ tt.schedule, (lookupCourse tt.courses p.1).isSome
  · have hex : ∃ p ∈ tt.schedule, ∃ c, lookupCourse tt.courses p.1 = some c ∧
        lookupLect tt.lecturers c.lecturer = none := by
      unfold lookupsOk at h
      push_neg at h
      obtain ⟨p, hp, hpn⟩ := h
      obtain ⟨c, hc⟩ := Option.isSome_iff_exists.mp (hall p hp)
      refine ⟨p, hp, c, hc, ?_⟩
      rcases ho : lookupLect tt.lecturers c.lecturer with _ | l
      · rfl
      · exact absurd ho (hpn c hc l)
    have hroom := roomPass_spec tt.courses tt.schedule 0 [] hall
    have hlect := lecturerPass_none tt.courses tt.lecturers tt.schedule
      (0 + invalidRoomTotal tt.courses tt.schedule +
        1000 * ((totalSlots tt.schedule : ℤ) -
          (((schedRoomKeys tt.schedule).toFinset \ ([] : List (ℤ × ℤ × ℤ)).toFinset).card : ℤ)))
      [] hex hall
    simp only [Timetable.get_fitness, hroom, hlect]
  · have hex : ∃ p ∈ tt.schedule, lookupCourse tt.courses p.1 = none := by
      push_neg at hall
      obtain ⟨p, hp, hpn⟩ := hall
      refine ⟨p, hp, ?_⟩
      rcases ho : lookupCourse tt.courses p.1 with _ | c
      · rfl
      · exact absurd (by simp [ho]) hpn
    have hroom := roomPass_none tt.courses tt.schedule 0 [] hex
    simp only [Timetable.get_fitness, hroom]

theorem contiguityGo_eq_zero :
    ∀ (l : List TimeSlot) (prev : TimeSlot), List.Chain' contiguousStep (prev :: l) →
      contiguityGo prev l = 0 := by
  intro l
  induction l with
  | nil => intro prev _; simp [contiguityGo]
  | cons s rest ih =>
    intro prev h
    rw [List.chain'_cons] at h
    obtain ⟨⟨hd, hp⟩, hrest⟩ := h
    simp [contiguityGo, hd, hp, ih s hrest]

theorem contiguityItem_eq_zero (slots : List TimeSlot)
    (h : List.Chain' contiguousStep (sortSlots slots)) : contiguityItem slots = 0 := by
  unfold contiguityItem
  by_cases hl : 1 < slots.length
  · simp only [hl, if_true]
    rcases hs : sortSlots slots with _ | ⟨s, rest⟩
    · rfl
    · rw [hs] at h
      exact contiguityGo_eq_zero rest s h
  · simp [hl]

theorem schedRoomKeys_length (sched : Schedule) :
    (schedRoomKeys sched).length = totalSlots sched := by
  induction sched with
  | nil => simp [schedRoomKeys, totalSlots]
  | cons p rest ih =>
    simp only [schedRoomKeys, List.flatMap_cons, List.length_append, List.length_map,
      totalSlots, List.map_cons, List.sum_cons] at ih ⊢
    omega

theorem schedLectKeys_length (courses : List Course) (sched : Schedule)
    (h : ∀ p ∈ sched, (lookupCourse courses p.1).isSome) :
    (schedLectKeys courses sched).length = totalSlots sched := by
  induction sched with
  | nil => simp [schedLectKeys, totalSlots]
  | cons p rest ih =>
    obtain ⟨c, hc⟩ := Option.isSome_iff_exists.mp (h p (List.mem_cons_self p rest))
    have ih' := ih (fun q hq => h q (List.mem_cons_of_mem _ hq))
    simp [schedLectKeys, totalSlots, hc] at ih' ⊢
    simp [ih']

/-- C3: a schedule with successful lookups, only required rooms, no
duplicated (day, period, room) key, lecturers available everywhere, no
duplicated (day, period, lecturer) key, and day/period-contiguous sorted
slot runs per course, scores exactly 0. -/
theorem get_fitness_zero (tt : Timetable)
    (hvalid : ∀ p ∈ tt.schedule, ∃ c, lookupCourse tt.courses p.1 = some c ∧
      (∀ s ∈ p.2, s.room ∈ c.required_rooms) ∧
      ∃ l, lookupLect tt.lecturers c.lecturer = some l ∧ ∀ s ∈ p.2, availBool l s = true)
    (hroomN : (schedRoomKeys tt.schedule).Nodup)
    (hlectN : (schedLectKeys tt.courses tt.schedule).Nodup)
    (hcontig : ∀ p ∈ tt.schedule, List.Chain' contiguousStep (sortSlots p.2)) :
    tt.get_fitness = some (0, { tt with schedule := sortSchedule tt.schedule }) := by
  have hok : lookupsOk tt := by
    intro p hp
    obtain ⟨c, hc, _, l, hl, _⟩ := hvalid p hp
    exact ⟨c, hc, l, hl⟩
  have hcourses : ∀ p ∈ tt.schedule, (lookupCourse tt.courses p.1).isSome := by
    intro p hp
    obtain ⟨c, hc, _⟩ := hvalid p hp
    simp [hc]
  rw [get_fitness_eq_some tt hok]
  have hinv : invalidRoomTotal tt.courses tt.schedule = 0 := by
    unfold invalidRoomTotal
    apply List.sum_eq_zero
    intro x hx
    simp only [List.mem_map] at hx
    obtain ⟨p, hp, rfl⟩ := hx
    obtain ⟨c, hc, hrooms, _⟩ := hvalid p hp
    rw [hc]
    have hcp : p.2.countP (roomBad c) = 0 :=
      List.countP_eq_zero.mpr (fun s hs => by simp [roomBad, hrooms s hs])
    simp [hcp]
  have hunav : unavailTotal tt.courses tt.lecturers tt.schedule = 0 := by
    unfold unavailTotal
    apply List.sum_eq_zero
    intro x hx
    simp only [List.mem_map] at hx
    obtain ⟨p, hp, rfl⟩ := hx
    obtain ⟨c, hc, _, l, hl, havl⟩ := hvalid p hp
    rw [hc]
    have hcp : p.2.countP (fun s => ! availBool l s) = 0 :=
      List.countP_eq_zero.mpr (fun s hs => by simp [havl s hs])
    simp [hl, hcp]
  have hrc : ((schedRoomKeys tt.schedule).toFinset.card : ℤ) = (totalSlots tt.schedule : ℤ) := by
    rw [List.toFinset_card_of_nodup hroomN, schedRoomKeys_length]
  have hlc : ((schedLectKeys tt.courses tt.schedule).toFinset.card : ℤ) =
      (totalSlots tt.schedule : ℤ) := by
    rw [List.toFinset_card_of_nodup hlectN, schedLectKeys_length tt.courses tt.schedule hcourses]
  have hcont : contiguityPass tt.schedule = 0 := by
    unfold contiguityPass
    apply List.sum_eq_zero
    intro x hx
    simp only [List.mem_map] at hx
    obtain ⟨p, hp, rfl⟩ := hx
    exact contiguityItem_eq_zero p.2 (hcontig p hp)
  unfold fitnessClosed
  rw [hinv, hunav, hrc, hlc, hcont]
  ring_nf

theorem get_fitness_zero_witness :
    Timetable.get_fitness
        ⟨[⟨0, "Math", 2, 0, [0, 1]⟩, ⟨1, "Physics", 1, 1, [1, 2]⟩],
          [⟨0, "Smith", [(0, 0), (0, 1), (1, 0)]⟩, ⟨1, "Jones", [(0, 2), (1, 1), (1, 2)]⟩],
          [0, 1, 2], 5, 8,
          [(0, [⟨0, 0, 0⟩, ⟨0, 1, 0⟩]), (1, [⟨0, 2, 1⟩])]⟩ =
      some (0,
        ⟨[⟨0, "Math", 2, 0, [0, 1]⟩, ⟨1, "Physics", 1, 1, [1, 2]⟩],
          [⟨0, "Smith", [(0, 0), (0, 1), (1, 0)]⟩, ⟨1, "Jones", [(0, 2), (1, 1), (1, 2)]⟩],
          [0, 1, 2], 5, 8,
          [(0, [⟨0, 0, 0⟩, ⟨0, 1, 0⟩]), (1, [⟨0, 2, 1⟩])]⟩) := by
  have h := get_fitness_zero
    ⟨[⟨0, "Math", 2, 0, [0, 1]⟩, ⟨1, "Physics", 1, 1, [1, 2]⟩],
      [⟨0, "Smith", [(0, 0), (0, 1), (1, 0)]⟩, ⟨1, "Jones", [(0, 2), (1, 1), (1, 2)]⟩],
      [0, 1, 2], 5, 8,
      [(0, [⟨0, 0, 0⟩, ⟨0, 1, 0⟩]), (1, [⟨0, 2, 1⟩])]⟩
    (by
      intro p hp
      simp only [List.mem_cons, List.not_mem_nil, or_false] at hp
      rcases hp with rfl | rfl
      · exact ⟨⟨0, "Math", 2, 0, [0, 1]⟩, by decide, by decide,
          ⟨0, "Smith", [(0, 0), (0, 1), (1, 0)]⟩, by decide, by decide⟩
      · exact ⟨⟨1, "Physics", 1, 1, [1, 2]⟩, by decide, by decide,
          ⟨1, "Jones", [(0, 2), (1, 1), (1, 2)]⟩, by decide, by decide⟩)
    (by decide) (by decide)
    (by
      intro p hp
      simp only [List.mem_cons, List.not_mem_nil, or_false] at hp
      rcases hp with rfl | rfl
      · show List.Chain' contiguousStep [(⟨0, 0, 0⟩ : TimeSlot), ⟨0, 1, 0⟩]
        exact List.chain'_pair.mpr (by decide)
      · show List.Chain' contiguousStep [(⟨0, 2, 1⟩ : TimeSlot)]
        exact List.chain'_singleton _)
  exact h

/-- C7: get_fitness is invariant to the iteration order of the schedule
mapping: permuting the (course, slots) entries never changes the returned
total (and a failing lookup fails in every order). -/
theorem get_fitness_iter_order_invariant (tt : Timetable) (s₂ : Schedule)
    (hperm : tt.schedule.Perm s₂) :
    (Timetable.get_fitness tt).map Prod.fst =
      (Timetable.get_fitness { tt with schedule := s₂ }).map Prod.fst := by
  by_cases hok : lookupsOk tt
  · have hok₂ : lookupsOk { tt with schedule := s₂ } := by
      intro p hp
      exact hok p (hperm.mem_iff.mpr hp)
    rw [get_fitness_eq_some _ hok, get_fitness_eq_some _ hok₂]
    simp only [Option.map_some']
    have hinv : invalidRoomTotal tt.courses tt.schedule = invalidRoomTotal tt.courses s₂ :=
      (hperm.map _).sum_eq
    have htot : totalSlots tt.schedule = totalSlots s₂ := (hperm.map _).sum_eq
    have hrk : (schedRoomKeys tt.schedule).toFinset = (schedRoomKeys s₂).toFinset :=
      List.toFinset_eq_of_perm _ _ (hperm.flatMap_right _)
    have hlk : (schedLectKeys tt.courses tt.schedule).toFinset =
        (schedLectKeys tt.courses s₂).toFinset :=
      List.toFinset_eq_of_perm _ _ (hperm.flatMap_right _)
    have hun : unavailTotal tt.courses tt.lecturers tt.schedule =
        unavailTotal tt.courses tt.lecturers s₂ := (hperm.map _).sum_eq
    have hcont : contiguityPass tt.schedule = contiguityPass s₂ := (hperm.map _).sum_eq
    unfold fitnessClosed
    simp only
    rw [hinv, htot, hrk, hlk, hcont, hun]
  · have hok₂ : ¬ lookupsOk { tt with schedule := s₂ } := by
      intro hk
      exact hok (fun p hp => hk p (hperm.mem_iff.mp hp))
    rw [get_fitness_eq_none _ hok, get_fitness_eq_none _ hok₂]

theorem get_fitness_iter_order_invariant_witness :
    ([( (0 : ℤ), [(⟨0, 0, 0⟩ : TimeSlot), ⟨0, 1, 0⟩]), (1, [⟨0, 2, 1⟩])] : Schedule).Perm
        [(1, [⟨0, 2, 1⟩]), (0, [⟨0, 0, 0⟩, ⟨0, 1, 0⟩])] ∧
    (Timetable.get_fitness
        ⟨[⟨0, "Math", 2, 0, [0, 1]⟩, ⟨1, "Physics", 1, 1, [1, 2]⟩],
          [⟨0, "Smith", [(0, 0), (0, 1), (1, 0)]⟩, ⟨1, "Jones", [(0, 2), (1, 1), (1, 2)]⟩],
          [0, 1, 2], 5, 8,
          [(0, [⟨0, 0, 0⟩, ⟨0, 1, 0⟩]), (1, [⟨0, 2, 1⟩])]⟩).map Prod.fst =
      (Timetable.get_fitness
        ⟨[⟨0, "Math", 2, 0, [0, 1]⟩, ⟨1, "Physics", 1, 1, [1, 2]⟩],
          [⟨0, "Smith", [(0, 0), (0, 1), (1, 0)]⟩, ⟨1, "Jones", [(0, 2), (1, 1), (1, 2)]⟩],
          [0, 1, 2], 5, 8,
          [(1, [⟨0, 2, 1⟩]), (0, [⟨0, 0, 0⟩, ⟨0, 1, 0⟩])]⟩).map Prod.fst :=
  ⟨List.Perm.swap _ _ _,
    get_fitness_iter_order_invariant
      ⟨[⟨0, "Math", 2, 0, [0, 1]⟩, ⟨1, "Physics", 1, 1, [1, 2]⟩],
        [⟨0, "Smith", [(0, 0), (0, 1), (1, 0)]⟩, ⟨1, "Jones", [(0, 2), (1, 1), (1, 2)]⟩],
        [0, 1, 2], 5, 8,
        [(0, [⟨0, 0, 0⟩, ⟨0, 1, 0⟩]), (1, [⟨0, 2, 1⟩])]⟩
      [(1, [⟨0, 2, 1⟩]), (0, [⟨0, 0, 0⟩, ⟨0, 1, 0⟩])]
      (List.Perm.swap _ _ _)⟩

/-- C8 counterexample: the code charges 1000 when one single course holds
the same (day, period, room) twice (no pair of different courses exists),
and charges once per repeated occurrence rather than once per pair: three
different courses on one key give 2000, not the 3000 of the three pairs.
The room pass shown has no invalid-room 100s, so its total is purely the
1000-point conflict term. -/
theorem roomConflict_counterexample :
    (roomPass [⟨7, "Solo", 2, 0, [0]⟩] [(7, [⟨0, 0, 0⟩, ⟨0, 0, 0⟩])] 0 [] = some 1000 ∧
      claimRoomPairPenalty [(7, [⟨0, 0, 0⟩, ⟨0, 0, 0⟩])] = 0) ∧
    (roomPass [⟨1, "P", 1, 0, [0]⟩, ⟨2, "Q", 1, 0, [0]⟩, ⟨3, "R", 1, 0, [0]⟩]
        [(1, [⟨0, 0, 0⟩]), (2, [⟨0, 0, 0⟩]), (3, [⟨0, 0, 0⟩])] 0 [] = some 2000 ∧
      claimRoomPairPenalty [(1, [⟨0, 0, 0⟩]), (2, [⟨0, 0, 0⟩]), (3, [⟨0, 0, 0⟩])] = 3000) := by
  refine ⟨⟨?_, ?_⟩, ⟨?_, ?_⟩⟩
  · decide
  · decide
  · decide
  · decide

/-- C8 amended: the 1000-point room-conflict penalty accrues once per slot
occurrence beyond the first of each (day, period, room) key, regardless of
whether the occupying courses differ: whenever every course lookup
succeeds, the room pass totals the invalid-room 100s plus
1000 * (slot occurrences - distinct occupied keys).  For exactly two
different courses sharing one key once, that is exactly one 1000 term on
top of the other, independent penalties. -/
theorem roomPass_amended (courses : List Course) (sched : Schedule)
    (h : ∀ p ∈ sched, (lookupCourse courses p.1).isSome) :
    roomPass courses sched 0 [] =
      some (invalidRoomTotal courses sched +
        1000 * ((totalSlots sched : ℤ) - ((schedRoomKeys sched).toFinset.card : ℤ))) := by
  rw [roomPass_spec courses sched 0 [] h]
  simp

theorem roomPass_amended_witness :
    (∀ p ∈ ([(1, [⟨0, 0, 0⟩]), (2, [⟨0, 0, 0⟩])] : Schedule),
      (lookupCourse [⟨1, "P", 1, 0, [0]⟩, ⟨2, "Q", 1, 0, [0]⟩] p.1).isSome) ∧
    roomPass [⟨1, "P", 1, 0, [0]⟩, ⟨2, "Q", 1, 0, [0]⟩]
        [(1, [⟨0, 0, 0⟩]), (2, [⟨0, 0, 0⟩])] 0 [] =
      some (invalidRoomTotal [⟨1, "P", 1, 0, [0]⟩, ⟨2, "Q", 1, 0, [0]⟩]
          [(1, [⟨0, 0, 0⟩]), (2, [⟨0, 0, 0⟩])] +
        1000 * ((totalSlots [(1, [⟨0, 0, 0⟩]), (2, [⟨0, 0, 0⟩])] : ℤ) -
          ((schedRoomKeys [(1, [⟨0, 0, 0⟩]), (2, [⟨0, 0, 0⟩])]).toFinset.card : ℤ))) :=
  ⟨by decide,
    roomPass_amended [⟨1, "P", 1, 0, [0]⟩, ⟨2, "Q", 1, 0, [0]⟩]
      [(1, [⟨0, 0, 0⟩]), (2, [⟨0, 0, 0⟩])] (by decide)⟩

/-- C9, Scenario B: course A (duration 2, rooms 0 and 1, lecturer 0) at
(0,0,room0) and (1,0,room0), course B (duration 1, rooms 1 and 2,
lecturer 1) at (0,2,room1); rooms valid, lecturers available, no
double-booking, but A is split across two days: fitness is exactly 50,
the one day-split penalty. -/
theorem scenarioB_fitness :
    (Timetable.get_fitness
        ⟨[⟨0, "Math", 2, 0, [0, 1]⟩, ⟨1, "Physics", 1, 1, [1, 2]⟩],
          [⟨0, "Smith", [(0, 0), (0, 1), (1, 0)]⟩, ⟨1, "Jones", [(0, 2), (1, 1), (1, 2)]⟩],
          [0, 1, 2], 5, 8,
          [(0, [⟨0, 0, 0⟩, ⟨1, 0, 0⟩]), (1, [⟨0, 2, 1⟩])]⟩).map Prod.fst = some 50 := by
  decide

theorem sortSlots_length (l : List TimeSlot) : (sortSlots l).length = l.length :=
  List.length_insertionSort slotOrder l

theorem sortSlots_idem (l : List TimeSlot) : sortSlots (sortSlots l) = sortSlots l :=
  List.Sorted.insertionSort_eq (sortSlots_sorted l)

theorem sortSchedule_idem (s : Schedule) : sortSchedule (sortSchedule s) = sortSchedule s := by
  unfold sortSchedule
  rw [List.map_map]
  apply List.map_congr_left
  intro p _
  simp only [Function.comp]
  by_cases h : 1 < p.2.length
  · simp [h, sortSlots_length, sortSlots_idem]
  · simp [h]

theorem sortSchedule_forall₂ (s : Schedule) :
    List.Forall₂ (fun p p' => p'.1 = p.1 ∧ p'.2.Perm p.2 ∧ p'.2.Sorted slotOrder)
      s (sortSchedule s) := by
  induction s with
  | nil => exact List.Forall₂.nil
  | cons p rest ih =>
    refine List.Forall₂.cons ⟨rfl, ?_, ?_⟩ ih
    · by_cases h : 1 < p.2.length
      · simpa [h] using sortSlots_perm p.2
      · simp [h]
    · by_cases h : 1 < p.2.length
      · simpa [h] using sortSlots_sorted p.2
      · rcases hp : p.2 with _ | ⟨a, _ | ⟨b, t⟩⟩
        · simp [h, hp]
        · simp [h, hp, List.sorted_singleton]
        · rw [hp] at h
          simp at h

theorem sortSchedule_roomKeys_perm (s : Schedule) :
    (schedRoomKeys (sortSchedule s)).Perm (schedRoomKeys s) := by
  induction s with
  | nil => simp [sortSchedule, schedRoomKeys]
  | cons p rest ih =>
    simp only [sortSchedule, schedRoomKeys, List.map_cons, List.flatMap_cons] at ih ⊢
    refine List.Perm.append ?_ ih
    by_cases h : 1 < p.2.length
    · simpa [h] using (sortSlots_perm p.2).map roomKey
    · simp [h]

theorem sortSchedule_lectKeys_perm (courses : List Course) (s : Schedule) :
    (schedLectKeys courses (sortSchedule s)).Perm (schedLectKeys courses s) := by
  induction s with
  | nil => simp [sortSchedule, schedLectKeys]
  | cons p rest ih =>
    simp only [sortSchedule, schedLectKeys, List.map_cons, List.flatMap_cons] at ih ⊢
    refine List.Perm.append ?_ ih
    rcases hc : lookupCourse courses p.1 with _ | c
    · simp only [lookupCourse] at hc
      simp [hc]
    · simp only [lookupCourse] at hc
      simp only [hc]
      by_cases h : 1 < p.2.length
      · simpa [h] using (sortSlots_perm p.2).map (lectKey c)
      · simp [h]

theorem sortSchedule_invalidRoomTotal (courses : List Course) (s : Schedule) :
    invalidRoomTotal courses (sortSchedule s) = invalidRoomTotal courses s := by
  unfold invalidRoomTotal sortSchedule
  rw [List.map_map]
  congr 1
  apply List.map_congr_left
  intro p _
  simp only [Function.comp]
  rcases hc : lookupCourse courses p.1 with _ | c
  · simp only [lookupCourse] at hc
    simp [hc]
  · simp only [lookupCourse] at hc
    simp only [hc]
    by_cases h : 1 < p.2.length
    · simp [h, List.Perm.countP_eq _ (sortSlots_perm p.2)]
    · simp [h]

theorem sortSchedule_unavailTotal (courses : List Course) (lecturers : List Lecturer)
    (s : Schedule) :
    unavailTotal courses lecturers (sortSchedule s) = unavailTotal courses lecturers s := by
  unfold unavailTotal sortSchedule
  rw [List.map_map]
  congr 1
  apply List.map_congr_left
  intro p _
  simp only [Function.comp]
  rcases hc : lookupCourse courses p.1 with _ | c
  · simp only [lookupCourse] at hc
    simp [hc]
  · simp only [lookupCourse] at hc
    simp only [hc]
    rcases hl : lookupLect lecturers c.lecturer with _ | l
    · simp only [lookupLect] at hl
      simp [hl]
    · simp only [lookupLect] at hl
      simp only [hl]
      by_cases h : 1 < p.2.length
      · simp [h, List.Perm.countP_eq _ (sortSlots_perm p.2)]
      · simp [h]

theorem sortSchedule_totalSlots (s : Schedule) : totalSlots (sortSchedule s) = totalSlots s := by
  unfold totalSlots sortSchedule
  rw [List.map_map]
  congr 1
  apply List.map_congr_left
  intro p _
  simp only [Function.comp]
  by_cases h : 1 < p.2.length
  · simp [h, sortSlots_length]
  · simp [h]

theorem sortSchedule_contiguityPass (s : Schedule) :
    contiguityPass (sortSchedule s) = contiguityPass s := by
  unfold contiguityPass sortSchedule
  rw [List.map_map]
  congr 1
  apply List.map_congr_left
  intro p _
  simp only [Function.comp]
  by_cases h : 1 < p.2.length
  · simp only [h, if_true]
    unfold contiguityItem
    rw [sortSlots_length, sortSlots_idem]
  · simp [h]

theorem lookupsOk_sortSchedule (tt : Timetable) (h : lookupsOk tt) :
    lookupsOk { tt with schedule := sortSchedule tt.schedule } := by
  intro p hp
  simp only [sortSchedule, List.mem_map] at hp
  obtain ⟨q, hq, rfl⟩ := hp
  exact h q hq

theorem fitnessClosed_sortSchedule (tt : Timetable) :
    fitnessClosed { tt with schedule := sortSchedule tt.schedule } = fitnessClosed tt := by
  unfold fitnessClosed
  simp only
  rw [sortSchedule_invalidRoomTotal, sortSchedule_unavailTotal, sortSchedule_totalSlots,
    List.toFinset_eq_of_perm _ _ (sortSchedule_roomKeys_perm tt.schedule),
    List.toFinset_eq_of_perm _ _ (sortSchedule_lectKeys_perm tt.courses tt.schedule),
    sortSchedule_contiguityPass]

/-- C10: a successful get_fitness call returns, along with the penalty, a
timetable whose schedule is the in-place (day, period)-sorted version of
the input schedule (each slot list of length greater than one sorted
ascending by (day, period)) and whose every other field is unchanged;
entry keys and per-course slot multisets are preserved, and an
immediately repeated call returns the same value and changes nothing
more. -/
theorem get_fitness_frame (tt : Timetable) (q : ℤ) (tt' : Timetable)
    (h : tt.get_fitness = some (q, tt')) :
    tt'.courses = tt.courses ∧ tt'.lecturers = tt.lecturers ∧ tt'.rooms = tt.rooms ∧
      tt'.days = tt.days ∧ tt'.periods_per_day = tt.periods_per_day ∧
      tt'.schedule = sortSchedule tt.schedule ∧
      List.Forall₂ (fun p p' => p'.1 = p.1 ∧ p'.2.Perm p.2 ∧ p'.2.Sorted slotOrder)
        tt.schedule tt'.schedule ∧
      tt'.get_fitness = some (q, tt') := by
  by_cases hok : lookupsOk tt
  · rw [get_fitness_eq_some tt hok] at h
    simp only [Option.some.injEq, Prod.mk.injEq] at h
    obtain ⟨hq, htt'⟩ := h
    subst hq
    subst htt'
    refine ⟨rfl, rfl, rfl, rfl, rfl, rfl, sortSchedule_forall₂ tt.schedule, ?_⟩
    rw [get_fitness_eq_some _ (lookupsOk_sortSchedule tt hok)]
    rw [fitnessClosed_sortSchedule]
    simp only [sortSchedule_idem]
  · rw [get_fitness_eq_none tt hok] at h
    exact Option.noConfusion h

theorem get_fitness_frame_witness :
    Timetable.get_fitness
        ⟨[⟨0, "Math", 2, 0, [0, 1]⟩, ⟨1, "Physics", 1, 1, [1, 2]⟩],
          [⟨0, "Smith", [(0, 0), (0, 1), (1, 0)]⟩, ⟨1, "Jones", [(0, 2), (1, 1), (1, 2)]⟩],
          [0, 1, 2], 5, 8,
          [(0, [⟨0, 0, 0⟩, ⟨0, 1, 0⟩]), (1, [⟨0, 2, 1⟩])]⟩ =
      some (0,
        ⟨[⟨0, "Math", 2, 0, [0, 1]⟩, ⟨1, "Physics", 1, 1, [1, 2]⟩],
          [⟨0, "Smith", [(0, 0), (0, 1), (1, 0)]⟩, ⟨1, "Jones", [(0, 2), (1, 1), (1, 2)]⟩],
          [0, 1, 2], 5, 8,
          [(0, [⟨0, 0, 0⟩, ⟨0, 1, 0⟩]), (1, [⟨0, 2, 1⟩])]⟩) ∧
    (⟨[⟨0, "Math", 2, 0, [0, 1]⟩, ⟨1, "Physics", 1, 1, [1, 2]⟩],
        [⟨0, "Smith", [(0, 0), (0, 1), (1, 0)]⟩, ⟨1, "Jones", [(0, 2), (1, 1), (1, 2)]⟩],
        [0, 1, 2], 5, 8,
        [(0, [⟨0, 0, 0⟩, ⟨0, 1, 0⟩]), (1, [⟨0, 2, 1⟩])]⟩ : Timetable).schedule =
      sortSchedule [(0, [⟨0, 0, 0⟩, ⟨0, 1, 0⟩]), (1, [⟨0, 2, 1⟩])] ∧
    Timetable.get_fitness
        ⟨[⟨0, "Math", 2, 0, [0, 1]⟩, ⟨1, "Physics", 1, 1, [1, 2]⟩],
          [⟨0, "Smith", [(0, 0), (0, 1), (1, 0)]⟩, ⟨1, "Jones", [(0, 2), (1, 1), (1, 2)]⟩],
          [0, 1, 2], 5, 8,
          [(0, [⟨0, 0, 0⟩, ⟨0, 1, 0⟩]), (1, [⟨0, 2, 1⟩])]⟩ =
      some (0,
        ⟨[⟨0, "Math", 2, 0, [0, 1]⟩, ⟨1, "Physics", 1, 1, [1, 2]⟩],
          [⟨0, "Smith", [(0, 0), (0, 1), (1, 0)]⟩, ⟨1, "Jones", [(0, 2), (1, 1), (1, 2)]⟩],
          [0, 1, 2], 5, 8,
          [(0, [⟨0, 0, 0⟩, ⟨0, 1, 0⟩]), (1, [⟨0, 2, 1⟩])]⟩) := by
  have h := get_fitness_frame
    ⟨[⟨0, "Math", 2, 0, [0, 1]⟩, ⟨1, "Physics", 1, 1, [1, 2]⟩],
      [⟨0, "Smith", [(0, 0), (0, 1), (1, 0)]⟩, ⟨1, "Jones", [(0, 2), (1, 1), (1, 2)]⟩],
      [0, 1, 2], 5, 8,
      [(0, [⟨0, 0, 0⟩, ⟨0, 1, 0⟩]), (1, [⟨0, 2, 1⟩])]⟩
    0
    ⟨[⟨0, "Math", 2, 0, [0, 1]⟩, ⟨1, "Physics", 1, 1, [1, 2]⟩],
      [⟨0, "Smith", [(0, 0), (0, 1), (1, 0)]⟩, ⟨1, "Jones", [(0, 2), (1, 1), (1, 2)]⟩],
      [0, 1, 2], 5, 8,
      [(0, [⟨0, 0, 0⟩, ⟨0, 1, 0⟩]), (1, [⟨0, 2, 1⟩])]⟩
    (by decide)
  exact ⟨by decide, h.2.2.2.2.2.1, h.2.2.2.2.2.2.2⟩

/-- C4: for a vector of the required length the fitness wrapper never
raises: decode or scoring failures are caught and yield the positive
infinity sentinel, so some ordinary extended value is always returned;
the wrapper raises exactly for a vector-length mismatch. -/
theorem create_fitness_function_total (tt : Timetable) (sol : List ℚ) :
    (sol.length = solution_size tt.courses →
      ∃ v, create_fitness_function tt sol = .ok v) ∧
    (sol.length ≠ solution_size tt.courses →
      create_fitness_function tt sol = .error ()) := by
  constructor
  · intro h
    unfold create_fitness_function
    rw [if_neg (by simp [h])]
    rcases hdec : decode_solution sol tt.courses with e | sched
    · exact ⟨⊤, rfl⟩
    · show ∃ v, (match Timetable.get_fitness { tt with schedule := sched } with
        | none => (Except.ok ⊤ : Except Unit (WithTop ℤ))
        | some pr => Except.ok (pr.1 : WithTop ℤ)) = .ok v
      rcases hfit : Timetable.get_fitness { tt with schedule := sched } with _ | pr
      · exact ⟨⊤, rfl⟩
      · exact ⟨(pr.1 : WithTop ℤ), rfl⟩
  · intro h
    unfold create_fitness_function
    rw [if_pos h]

theorem create_fitness_function_total_witness :
    (([0, 0, 0, 0, 1, 0] : List ℚ).length =
        solution_size [⟨0, "Math", 2, 5, [0, 1]⟩] ∧
      ∃ v, create_fitness_function
        ⟨[⟨0, "Math", 2, 5, [0, 1]⟩], [], [], 5, 8, []⟩ [0, 0, 0, 0, 1, 0] = .ok v) ∧
    (([0] : List ℚ).length ≠ solution_size [⟨0, "Math", 2, 5, [0, 1]⟩] ∧
      create_fitness_function ⟨[⟨0, "Math", 2, 5, [0, 1]⟩], [], [], 5, 8, []⟩ [0] =
        .error ()) :=
  ⟨⟨by decide,
    (create_fitness_function_total ⟨[⟨0, "Math", 2, 5, [0, 1]⟩], [], [], 5, 8, []⟩
      [0, 0, 0, 0, 1, 0]).1 (by decide)⟩,
   ⟨by decide,
    (create_fitness_function_total ⟨[⟨0, "Math", 2, 5, [0, 1]⟩], [], [], 5, 8, []⟩
      [0]).2 (by decide)⟩⟩

theorem initStep_best_le (f : List ℚ → WithTop ℤ) (st : PSOState) (d : List ℚ × List ℚ) :
    (initStep f st d).global_best_fitness ≤ st.global_best_fitness ∧
    (initStep f st d).global_best_fitness ≤ f d.1 := by
  unfold initStep
  by_cases h : f d.1 < st.global_best_fitness
  · simp only [h, if_true]
    exact ⟨le_of_lt h, le_refl _⟩
  · simp only [h, if_false]
    exact ⟨le_refl _, le_of_not_lt h⟩

theorem initFold_best_le (f : List ℚ → WithTop ℤ) :
    ∀ (l : List (List ℚ × List ℚ)) (st : PSOState),
      (l.foldl (initStep f) st).global_best_fitness ≤ st.global_best_fitness ∧
      ∀ d ∈ l, (l.foldl (initStep f) st).global_best_fitness ≤ f d.1 := by
  intro l
  induction l with
  | nil => intro st; exact ⟨le_refl _, by simp⟩
  | cons d rest ih =>
    intro st
    simp only [List.foldl_cons]
    obtain ⟨h1, h2⟩ := initStep_best_le f st d
    obtain ⟨ih1, ih2⟩ := ih (initStep f st d)
    refine ⟨le_trans ih1 h1, ?_⟩
    intro d' hd'
    rcases List.mem_cons.mp hd' with rfl | hd'
    · exact le_trans ih1 h2
    · exact ih2 d' hd'

theorem particleStep_best_mono (cfg : PSOConfig) (f : List ℚ → WithTop ℤ) (w : ℚ)
    (r : ℚ × ℚ) (st : PSOState) (p : Particle) (st' : PSOState) (p' : Particle)
    (h : particleStep cfg f w r st p = .ok (st', p')) :
    st'.global_best_fitness ≤ st.global_best_fitness := by
  unfold particleStep at h
  rcases hg : st.global_best_position with _ | g
  · rw [hg] at h
    exact absurd h (by simp)
  · rw [hg] at h
    simp only at h
    split_ifs at h with h1 h2
    · simp only [Except.ok.injEq, Prod.mk.injEq] at h
      rw [← h.1]
      exact le_of_lt h2
    · simp only [Except.ok.injEq, Prod.mk.injEq] at h
      rw [← h.1]
    · simp only [Except.ok.injEq, Prod.mk.injEq] at h
      rw [← h.1]

theorem psoParticlesGo_best_mono (cfg : PSOConfig) (f : List ℚ → WithTop ℤ) (w : ℚ)
    (rand : ℕ → ℚ × ℚ) :
    ∀ (ps : List Particle) (i : ℕ) (st : PSOState) (acc : List Particle) (st' : PSOState),
      psoParticlesGo cfg f w rand i ps st acc = .ok st' →
      st'.global_best_fitness ≤ st.global_best_fitness := by
  intro ps
  induction ps with
  | nil =>
    intro i st acc st' h
    simp only [psoParticlesGo, Except.ok.injEq] at h
    rw [← h]
  | cons p rest ih =>
    intro i st acc st' h
    simp only [psoParticlesGo] at h
    rcases hstep : particleStep cfg f w (rand i) st p with e | pr
    · rw [hstep] at h
      exact absurd h (by simp)
    · rw [hstep] at h
      simp only at h
      exact le_trans (ih (i + 1) pr.1 (acc ++ [pr.2]) st' h)
        (particleStep_best_mono cfg f w (rand i) st p pr.1 pr.2 (by rw [hstep]))

theorem psoIteration_best_mono (cfg : PSOConfig) (f : List ℚ → WithTop ℤ) (w : ℚ)
    (rand : ℕ → ℚ × ℚ) (st st' : PSOState)
    (h : psoIteration cfg f w rand st = .ok st') :
    st'.global_best_fitness ≤ st.global_best_fitness :=
  psoParticlesGo_best_mono cfg f w rand st.particles 0 st [] st' h

theorem psoLoop_best_mono (cfg : PSOConfig) (f : List ℚ → WithTop ℤ) (rand : ℕ → ℕ → ℚ × ℚ)
    (st : PSOState) :
    ∀ (k : ℕ) (st' : PSOState), psoLoop cfg f rand st k = .ok st' →
      st'.global_best_fitness ≤ st.global_best_fitness := by
  intro k
  induction k with
  | zero =>
    intro st' h
    simp only [psoLoop, Except.ok.injEq] at h
    rw [← h]
  | succ k ih =>
    intro st' h
    simp only [psoLoop] at h
    rcases hk : psoLoop cfg f rand st k with e | stk
    · rw [hk] at h
      exact absurd h (by simp)
    · rw [hk] at h
      simp only at h
      exact le_trans (psoIteration_best_mono cfg f _ (rand k) stk st' h) (ih stk hk)

theorem initStep_particles (f : List ℚ → WithTop ℤ) (st : PSOState) (d : List ℚ × List ℚ) :
    (initStep f st d).particles = st.particles ++ [⟨d.1, d.2, d.1, f d.1⟩] := by
  unfold initStep
  by_cases h : f d.1 < st.global_best_fitness
  · simp [h]
  · simp [h]

theorem initFold_inv (f : List ℚ → WithTop ℤ) :
    ∀ (l : List (List ℚ × List ℚ)) (st : PSOState),
      (∀ p ∈ st.particles, p.best_fitness = f p.position ∧
        st.global_best_fitness ≤ p.best_fitness) →
      ∀ p ∈ (l.foldl (initStep f) st).particles,
        p.best_fitness = f p.position ∧
        (l.foldl (initStep f) st).global_best_fitness ≤ p.best_fitness := by
  intro l
  induction l with
  | nil => intro st h; exact h
  | cons d rest ih =>
    intro st h
    simp only [List.foldl_cons]
    apply ih
    intro p hp
    rw [initStep_particles] at hp
    rcases List.mem_append.mp hp with hold | hnew
    · obtain ⟨heq, hle⟩ := h p hold
      exact ⟨heq, le_trans (initStep_best_le f st d).1 hle⟩
    · simp only [List.mem_singleton] at hnew
      subst hnew
      exact ⟨rfl, (initStep_best_le f st d).2⟩

theorem particleStep_spec (cfg : PSOConfig) (f : List ℚ → WithTop ℤ) (w : ℚ)
    (r : ℚ × ℚ) (st : PSOState) (p : Particle) (st' : PSOState) (p' : Particle)
    (hpre : st.global_best_fitness ≤ p.best_fitness)
    (h : particleStep cfg f w r st p = .ok (st', p')) :
    st'.global_best_fitness ≤ st.global_best_fitness ∧
    st'.global_best_fitness ≤ f p'.position ∧
    st'.global_best_fitness ≤ p'.best_fitness := by
  unfold particleStep at h
  rcases hg : st.global_best_position with _ | g
  · rw [hg] at h
    exact absurd h (by simp)
  · rw [hg] at h
    simp only at h
    split_ifs at h with h1 h2
    · simp only [Except.ok.injEq, Prod.mk.injEq] at h
      obtain ⟨hst, hp'⟩ := h
      rw [← hst, ← hp']
      exact ⟨le_of_lt h2, le_refl _, le_refl _⟩
    · simp only [Except.ok.injEq, Prod.mk.injEq] at h
      obtain ⟨hst, hp'⟩ := h
      rw [← hst, ← hp']
      exact ⟨le_refl _, le_of_not_lt h2, le_of_not_lt h2⟩
    · simp only [Except.ok.injEq, Prod.mk.injEq] at h
      obtain ⟨hst, hp'⟩ := h
      rw [← hst, ← hp']
      exact ⟨le_refl _, le_trans hpre (le_of_not_lt h1), hpre⟩

theorem psoParticlesGo_spec (cfg : PSOConfig) (f : List ℚ → WithTop ℤ) (w : ℚ)
    (rand : ℕ → ℚ × ℚ) :
    ∀ (ps : List Particle) (i : ℕ) (st : PSOState) (acc : List Particle) (st' : PSOState),
      (∀ p ∈ ps, st.global_best_fitness ≤ p.best_fitness) →
      (∀ p ∈ acc, st.global_best_fitness ≤ f p.position ∧
        st.global_best_fitness ≤ p.best_fitness) →
      psoParticlesGo cfg f w rand i ps st acc = .ok st' →
      st'.global_best_fitness ≤ st.global_best_fitness ∧
      ∀ p ∈ st'.particles, st'.global_best_fitness ≤ f p.position ∧
        st'.global_best_fitness ≤ p.best_fitness := by
  intro ps
  induction ps with
  | nil =>
    intro i st acc st' hps hacc h
    simp only [psoParticlesGo, Except.ok.injEq] at h
    rw [← h]
    exact ⟨le_refl _, hacc⟩
  | cons p rest ih =>
    intro i st acc st' hps hacc h
    simp only [psoParticlesGo] at h
    rcases hstep : particleStep cfg f w (rand i) st p with e | pr
    · rw [hstep] at h
      exact absurd h (by simp)
    · rw [hstep] at h
      simp only at h
      obtain ⟨hm, he, hb⟩ := particleStep_spec cfg f w (rand i) st p pr.1 pr.2
        (hps p (List.mem_cons_self p rest)) (by rw [hstep])
      have hps' : ∀ q ∈ rest, pr.1.global_best_fitness ≤ q.best_fitness := fun q hq =>
        le_trans hm (hps q (List.mem_cons_of_mem _ hq))
      have hacc' : ∀ q ∈ acc ++ [pr.2], pr.1.global_best_fitness ≤ f q.position ∧
          pr.1.global_best_fitness ≤ q.best_fitness := by
        intro q hq
        rcases List.mem_append.mp hq with hold | hnew
        · obtain ⟨h1, h2⟩ := hacc q hold
          exact ⟨le_trans hm h1, le_trans hm h2⟩
        · simp only [List.mem_singleton] at hnew
          subst hnew
          exact ⟨he, hb⟩
      obtain ⟨hm', hall⟩ := ih (i + 1) pr.1 (acc ++ [pr.2]) st' hps' hacc' h
      exact ⟨le_trans hm' hm, hall⟩

theorem psoIteration_spec (cfg : PSOConfig) (f : List ℚ → WithTop ℤ) (w : ℚ)
    (rand : ℕ → ℚ × ℚ) (st st' : PSOState)
    (hinv : ∀ p ∈ st.particles, st.global_best_fitness ≤ p.best_fitness)
    (h : psoIteration cfg f w rand st = .ok st') :
    st'.global_best_fitness ≤ st.global_best_fitness ∧
    ∀ p ∈ st'.particles, st'.global_best_fitness ≤ f p.position ∧
      st'.global_best_fitness ≤ p.best_fitness :=
  psoParticlesGo_spec cfg f w rand st.particles 0 st [] st' hinv (by simp) h

theorem psoLoop_inv (cfg : PSOConfig) (f : List ℚ → WithTop ℤ) (rand : ℕ → ℕ → ℚ × ℚ)
    (st : PSOState)
    (hst : ∀ p ∈ st.particles, st.global_best_fitness ≤ f p.position ∧
      st.global_best_fitness ≤ p.best_fitness) :
    ∀ (k : ℕ) (stk : PSOState), psoLoop cfg f rand st k = .ok stk →
      ∀ p ∈ stk.particles, stk.global_best_fitness ≤ f p.position ∧
        stk.global_best_fitness ≤ p.best_fitness := by
  intro k
  induction k with
  | zero =>
    intro stk h
    simp only [psoLoop, Except.ok.injEq] at h
    rw [← h]
    exact hst
  | succ k ih =>
    intro stk h
    simp only [psoLoop] at h
    rcases hk : psoLoop cfg f rand st k with e | stmid
    · rw [hk] at h
      exact absurd h (by simp)
    · rw [hk] at h
      simp only at h
      have hmid := ih stmid hk
      exact (psoIteration_spec cfg f _ (rand k) stmid stk
        (fun p hp => (hmid p hp).2) h).2

theorem psoLoop_prefix_mono (cfg : PSOConfig) (f : List ℚ → WithTop ℤ)
    (rand : ℕ → ℕ → ℚ × ℚ) (st : PSOState) :
    ∀ (m k : ℕ) (stk stm : PSOState), k ≤ m →
      psoLoop cfg f rand st k = .ok stk →
      psoLoop cfg f rand st m = .ok stm →
      stm.global_best_fitness ≤ stk.global_best_fitness := by
  intro m
  induction m with
  | zero =>
    intro k stk stm hkm hk hm
    have hk0 : k = 0 := Nat.le_zero.mp hkm
    subst hk0
    rw [hk] at hm
    simp only [Except.ok.injEq] at hm
    rw [← hm]
  | succ m ih =>
    intro k stk stm hkm hk hm
    by_cases hke : k = m + 1
    · subst hke
      rw [hk] at hm
      simp only [Except.ok.injEq] at hm
      rw [← hm]
    · have hkm' : k ≤ m := by omega
      simp only [psoLoop] at hm
      rcases hmid : psoLoop cfg f rand st m with e | stmid
      · rw [hmid] at hm
        exact absurd hm (by simp)
      · rw [hmid] at hm
        simp only at hm
        exact le_trans (psoIteration_best_mono cfg f _ (rand m) stmid stm hm)
          (ih k stk stmid hkm' hk hmid)

theorem gaChildrenGo_best_mono (cfg : GeneticAlgorithmConfig) (f : List ℚ → WithTop ℤ)
    (pop : List Individual) (rand : ℕ → ChildRand) :
    ∀ (k t : ℕ) (st st' : GAState), gaChildrenGo cfg f pop rand t k st = .ok st' →
      st'.best_fitness ≤ st.best_fitness := by
  intro k
  induction k with
  | zero =>
    intro t st st' h
    simp only [gaChildrenGo, Except.ok.injEq] at h
    rw [← h]
  | succ k ih =>
    intro t st st' h
    simp only [gaChildrenGo] at h
    rcases h1 : tournament_selection pop (rand t).sample1 with e | parent1
    · rw [h1] at h
      exact absurd h (by simp)
    · rw [h1] at h
      simp only at h
      rcases h2 : tournament_selection pop (rand t).sample2 with e | parent2
      · rw [h2] at h
        exact absurd h (by simp)
      · rw [h2] at h
        simp only at h
        rcases h3 : mutate cfg.mutation_rate (rand t).coins (rand t).draws 0
            (crossover (rand t).mask parent1 parent2).chromosome with e | chrom
        · rw [h3] at h
          exact absurd h (by simp)
        · rw [h3] at h
          simp only at h
          refine le_trans (ih (t + 1) _ st' h) ?_
          by_cases hf : f chrom < st.best_fitness
          · simp only [hf, if_true]
            exact le_of_lt hf
          · simp only [hf, if_false]
            exact le_refl _

theorem gaGeneration_best_mono (cfg : GeneticAlgorithmConfig) (f : List ℚ → WithTop ℤ)
    (rand : ℕ → ChildRand) (st st' : GAState)
    (h : gaGeneration cfg f rand st = .ok st') :
    st'.best_fitness ≤ st.best_fitness := by
  have h' : gaChildrenGo cfg f st.population rand 0
      (cfg.population_size -
        (List.map (fun x => (⟨x.chromosome, ⊤⟩ : Individual))
          (List.take cfg.elite_size (List.insertionSort fitLe st.population))).length)
      ⟨List.map (fun x => (⟨x.chromosome, ⊤⟩ : Individual))
          (List.take cfg.elite_size (List.insertionSort fitLe st.population)),
        st.best_individual, st.best_fitness⟩ = .ok st' := h
  exact gaChildrenGo_best_mono cfg f st.population rand
    (cfg.population_size -
      (List.map (fun x => (⟨x.chromosome, ⊤⟩ : Individual))
        (List.take cfg.elite_size (List.insertionSort fitLe st.population))).length)
    0
    ⟨List.map (fun x => (⟨x.chromosome, ⊤⟩ : Individual))
        (List.take cfg.elite_size (List.insertionSort fitLe st.population)),
      st.best_individual, st.best_fitness⟩
    st' h'

/-- C5: the tracked best dominates every evaluation and only improves.
Every position the swarm search ever evaluates is stored by that very
evaluation step: initialization evaluates the drawn positions, which are
the particle positions of the state after zero iterations, and iteration
k evaluates, for each particle, the updated position that is stored as
that particle's position in the state after iteration k.  The first
conjunct therefore says that after any iteration prefix m, the global
best is at most the fitness of every particle position of every earlier
state k ≤ m — that is, of every position evaluated so far — and at most
the fitness of every initial draw.  The second conjunct gives the same
bound at single-step granularity inside an iteration: immediately after
any particle step the global best is at most the fitness just evaluated,
and it never increases.  The third conjunct is the population search:
the best-ever fitness after generation k+1 is at most the best-ever
fitness after generation k.  All bests are overwritten only on strict
improvement, so a run can only drive them downward. -/
theorem search_best_monotone :
    (∀ (cfg : PSOConfig) (f : List ℚ → WithTop ℤ) (inits : ℕ → List ℚ × List ℚ)
        (rand : ℕ → ℕ → ℚ × ℚ) (k m : ℕ) (stk stm : PSOState),
      k ≤ m →
      psoLoop cfg f rand (init_particles f inits cfg.n_particles) k = .ok stk →
      psoLoop cfg f rand (init_particles f inits cfg.n_particles) m = .ok stm →
      (∀ p ∈ stk.particles, stm.global_best_fitness ≤ f p.position) ∧
      (∀ i < cfg.n_particles, stm.global_best_fitness ≤ f (inits i).1)) ∧
    (∀ (cfg : PSOConfig) (f : List ℚ → WithTop ℤ) (w : ℚ) (r : ℚ × ℚ)
        (st : PSOState) (p : Particle) (st' : PSOState) (p' : Particle),
      st.global_best_fitness ≤ p.best_fitness →
      particleStep cfg f w r st p = .ok (st', p') →
      st'.global_best_fitness ≤ f p'.position ∧
      st'.global_best_fitness ≤ st.global_best_fitness) ∧
    (∀ (cfg : GeneticAlgorithmConfig) (f : List ℚ → WithTop ℤ) (orc : ℕ → ℕ → ChildRand)
        (st : GAState) (k : ℕ) (stk stk1 : GAState),
      gaGenerations cfg f orc st k = .ok stk →
      gaGenerations cfg f orc st (k + 1) = .ok stk1 →
      stk1.best_fitness ≤ stk.best_fitness) := by
  refine ⟨?_, ?_, ?_⟩
  · intro cfg f inits rand k m stk stm hkm hk hm
    have hst0 : ∀ p ∈ (init_particles f inits cfg.n_particles).particles,
        (init_particles f inits cfg.n_particles).global_best_fitness ≤ f p.position ∧
        (init_particles f inits cfg.n_particles).global_best_fitness ≤ p.best_fitness := by
      intro p hp
      have := initFold_inv f ((List.range cfg.n_particles).map inits) ⟨[], none, ⊤⟩
        (by intro q hq; simp at hq) p hp
      exact ⟨this.1 ▸ this.2, this.2⟩
    have hstk := psoLoop_inv cfg f rand (init_particles f inits cfg.n_particles) hst0 k stk hk
    have hmono := psoLoop_prefix_mono cfg f rand (init_particles f inits cfg.n_particles)
      m k stk stm hkm hk hm
    refine ⟨?_, ?_⟩
    · intro p hp
      exact le_trans hmono (hstk p hp).1
    · intro i hi
      have h0 : psoLoop cfg f rand (init_particles f inits cfg.n_particles) 0 =
          .ok (init_particles f inits cfg.n_particles) := rfl
      have hmono0 := psoLoop_prefix_mono cfg f rand (init_particles f inits cfg.n_particles)
        m 0 (init_particles f inits cfg.n_particles) stm (Nat.zero_le m) h0 hm
      have hmem : inits i ∈ (List.range cfg.n_particles).map inits :=
        List.mem_map.mpr ⟨i, List.mem_range.mpr hi, rfl⟩
      have hinit := (initFold_best_le f ((List.range cfg.n_particles).map inits)
        ⟨[], none, ⊤⟩).2 (inits i) hmem
      exact le_trans hmono0 hinit
  · intro cfg f w r st p st' p' hpre h
    obtain ⟨h1, h2, _⟩ := particleStep_spec cfg f w r st p st' p' hpre h
    exact ⟨h2, h1⟩
  · intro cfg f orc st k stk stk1 hk hk1
    simp only [gaGenerations, hk] at hk1
    exact gaGeneration_best_mono cfg f (orc k) stk stk1 hk1

theorem search_best_monotone_witness :
    ((0 : ℕ) ≤ 0 ∧
      psoLoop ⟨1, 0, 1, 0, 2, 2, 4⟩ (fun _ => ((5 : ℤ) : WithTop ℤ)) (fun _ _ => (0, 0))
        (init_particles (fun _ => ((5 : ℤ) : WithTop ℤ)) (fun _ => ([], [])) 1) 0 =
        .ok ⟨[⟨[], [], [], ((5 : ℤ) : WithTop ℤ)⟩], some [], ((5 : ℤ) : WithTop ℤ)⟩ ∧
      (⟨[], [], [], ((5 : ℤ) : WithTop ℤ)⟩ : Particle) ∈
        (⟨[⟨[], [], [], ((5 : ℤ) : WithTop ℤ)⟩], some [], ((5 : ℤ) : WithTop ℤ)⟩ :
          PSOState).particles ∧
      (0 : ℕ) < 1 ∧
      ((⟨[⟨[], [], [], ((5 : ℤ) : WithTop ℤ)⟩], some [], ((5 : ℤ) : WithTop ℤ)⟩ :
        PSOState).global_best_fitness ≤ ((5 : ℤ) : WithTop ℤ)) ∧
      ((⟨[⟨[], [], [], ((5 : ℤ) : WithTop ℤ)⟩], some [], ((5 : ℤ) : WithTop ℤ)⟩ :
        PSOState).global_best_fitness ≤ ((5 : ℤ) : WithTop ℤ))) ∧
    (((⟨[⟨[], [], [], ((5 : ℤ) : WithTop ℤ)⟩], some [], ((4 : ℤ) : WithTop ℤ)⟩ :
        PSOState).global_best_fitness ≤
          (⟨[], [], [], ((5 : ℤ) : WithTop ℤ)⟩ : Particle).best_fitness) ∧
      particleStep ⟨1, 1, 1, 0, 2, 2, 4⟩ (fun _ => ((3 : ℤ) : WithTop ℤ)) 0 (0, 0)
        ⟨[⟨[], [], [], ((5 : ℤ) : WithTop ℤ)⟩], some [], ((4 : ℤ) : WithTop ℤ)⟩
        ⟨[], [], [], ((5 : ℤ) : WithTop ℤ)⟩ =
        .ok (⟨[⟨[], [], [], ((5 : ℤ) : WithTop ℤ)⟩], some [], ((3 : ℤ) : WithTop ℤ)⟩,
          ⟨[], [], [], ((3 : ℤ) : WithTop ℤ)⟩) ∧
      ((⟨[⟨[], [], [], ((5 : ℤ) : WithTop ℤ)⟩], some [], ((3 : ℤ) : WithTop ℤ)⟩ :
        PSOState).global_best_fitness ≤ ((3 : ℤ) : WithTop ℤ)) ∧
      ((⟨[⟨[], [], [], ((5 : ℤ) : WithTop ℤ)⟩], some [], ((3 : ℤ) : WithTop ℤ)⟩ :
          PSOState).global_best_fitness ≤
        (⟨[⟨[], [], [], ((5 : ℤ) : WithTop ℤ)⟩], some [], ((4 : ℤ) : WithTop ℤ)⟩ :
          PSOState).global_best_fitness)) ∧
    (gaGenerations ⟨1, 1, 0, 3, 1⟩ (fun _ => ((7 : ℤ) : WithTop ℤ))
        (fun _ _ => ⟨[], [], [], fun _ => (0, 0, 0), fun _ => (0, 0, 0)⟩)
        ⟨[⟨[], ((5 : ℤ) : WithTop ℤ)⟩], some ⟨[], ((5 : ℤ) : WithTop ℤ)⟩,
          ((5 : ℤ) : WithTop ℤ)⟩ 0 =
        .ok ⟨[⟨[], ((5 : ℤ) : WithTop ℤ)⟩], some ⟨[], ((5 : ℤ) : WithTop ℤ)⟩,
          ((5 : ℤ) : WithTop ℤ)⟩ ∧
      gaGenerations ⟨1, 1, 0, 3, 1⟩ (fun _ => ((7 : ℤ) : WithTop ℤ))
        (fun _ _ => ⟨[], [], [], fun _ => (0, 0, 0), fun _ => (0, 0, 0)⟩)
        ⟨[⟨[], ((5 : ℤ) : WithTop ℤ)⟩], some ⟨[], ((5 : ℤ) : WithTop ℤ)⟩,
          ((5 : ℤ) : WithTop ℤ)⟩ 1 =
        .ok ⟨[⟨[], ⊤⟩], some ⟨[], ((5 : ℤ) : WithTop ℤ)⟩, ((5 : ℤ) : WithTop ℤ)⟩ ∧
      ((⟨[⟨[], ⊤⟩], some ⟨[], ((5 : ℤ) : WithTop ℤ)⟩, ((5 : ℤ) : WithTop ℤ)⟩ :
          GAState).best_fitness ≤
        (⟨[⟨[], ((5 : ℤ) : WithTop ℤ)⟩], some ⟨[], ((5 : ℤ) : WithTop ℤ)⟩,
          ((5 : ℤ) : WithTop ℤ)⟩ : GAState).best_fitness)) :=
  ⟨⟨Nat.le_refl 0, by decide, by decide, by decide,
    (search_best_monotone.1 ⟨1, 0, 1, 0, 2, 2, 4⟩ (fun _ => ((5 : ℤ) : WithTop ℤ))
      (fun _ => ([], [])) (fun _ _ => (0, 0)) 0 0
      ⟨[⟨[], [], [], ((5 : ℤ) : WithTop ℤ)⟩], some [], ((5 : ℤ) : WithTop ℤ)⟩
      ⟨[⟨[], [], [], ((5 : ℤ) : WithTop ℤ)⟩], some [], ((5 : ℤ) : WithTop ℤ)⟩
      (Nat.le_refl 0) (by decide) (by decide)).1
      ⟨[], [], [], ((5 : ℤ) : WithTop ℤ)⟩ (by decide),
    (search_best_monotone.1 ⟨1, 0, 1, 0, 2, 2, 4⟩ (fun _ => ((5 : ℤ) : WithTop ℤ))
      (fun _ => ([], [])) (fun _ _ => (0, 0)) 0 0
      ⟨[⟨[], [], [], ((5 : ℤ) : WithTop ℤ)⟩], some [], ((5 : ℤ) : WithTop ℤ)⟩
      ⟨[⟨[], [], [], ((5 : ℤ) : WithTop ℤ)⟩], some [], ((5 : ℤ) : WithTop ℤ)⟩
      (Nat.le_refl 0) (by decide) (by decide)).2 0 (by decide)⟩,
   ⟨by decide, by decide,
    (search_best_monotone.2.1 ⟨1, 1, 1, 0, 2, 2, 4⟩ (fun _ => ((3 : ℤ) : WithTop ℤ)) 0 (0, 0)
      ⟨[⟨[], [], [], ((5 : ℤ) : WithTop ℤ)⟩], some [], ((4 : ℤ) : WithTop ℤ)⟩
      ⟨[], [], [], ((5 : ℤ) : WithTop ℤ)⟩
      ⟨[⟨[], [], [], ((5 : ℤ) : WithTop ℤ)⟩], some [], ((3 : ℤ) : WithTop ℤ)⟩
      ⟨[], [], [], ((3 : ℤ) : WithTop ℤ)⟩ (by decide) (by decide)).1,
    (search_best_monotone.2.1 ⟨1, 1, 1, 0, 2, 2, 4⟩ (fun _ => ((3 : ℤ) : WithTop ℤ)) 0 (0, 0)
      ⟨[⟨[], [], [], ((5 : ℤ) : WithTop ℤ)⟩], some [], ((4 : ℤ) : WithTop ℤ)⟩
      ⟨[], [], [], ((5 : ℤ) : WithTop ℤ)⟩
      ⟨[⟨[], [], [], ((5 : ℤ) : WithTop ℤ)⟩], some [], ((3 : ℤ) : WithTop ℤ)⟩
      ⟨[], [], [], ((3 : ℤ) : WithTop ℤ)⟩ (by decide) (by decide)).2⟩,
   ⟨by decide, by decide,
    search_best_monotone.2.2 ⟨1, 1, 0, 3, 1⟩ (fun _ => ((7 : ℤ) : WithTop ℤ))
      (fun _ _ => ⟨[], [], [], fun _ => (0, 0, 0), fun _ => (0, 0, 0)⟩)
      ⟨[⟨[], ((5 : ℤ) : WithTop ℤ)⟩], some ⟨[], ((5 : ℤ) : WithTop ℤ)⟩,
        ((5 : ℤ) : WithTop ℤ)⟩ 0
      ⟨[⟨[], ((5 : ℤ) : WithTop ℤ)⟩], some ⟨[], ((5 : ℤ) : WithTop ℤ)⟩,
        ((5 : ℤ) : WithTop ℤ)⟩
      ⟨[⟨[], ⊤⟩], some ⟨[], ((5 : ℤ) : WithTop ℤ)⟩, ((5 : ℤ) : WithTop ℤ)⟩
      (by decide) (by decide)⟩⟩

/-- C6 is a code bug: with a fitness function that is constantly positive
infinity (for example when every candidate hits a failed lecturer
lookup), neither search returns an absent best.  PSO with one particle
and one iteration evaluates None minus the position array in the social
term, a TypeError; the GA unconditionally dereferences
best_individual.chromosome at return, an AttributeError when it is still
None.  PSO does return an ok None exactly when its iteration body never
runs (third conjunct: zero iterations), which is the behaviour the
caller's None check in app.py anticipates for the whole degenerate
case. -/
theorem degenerate_runs_raise :
    PSO.optimize ⟨1, 1, 1, 0, 2, 2, 4⟩ (fun _ => ⊤) (fun _ => ([0], [0]))
        (fun _ _ => (0, 0)) = .error () ∧
    GeneticAlgorithm.optimize ⟨1, 1, 0, 3, 1⟩ (fun _ => ⊤) (fun _ _ => (0, 0, 0))
        (fun _ _ => ⟨[], [], [], fun _ => (0, 0, 0), fun _ => (0, 0, 0)⟩) 3 = .error () ∧
    PSO.optimize ⟨1, 0, 1, 0, 2, 2, 4⟩ (fun _ => ⊤) (fun _ => ([0], [0]))
        (fun _ _ => (0, 0)) = .ok none :=
  ⟨by decide, by decide, by decide⟩

end Timetabling
